import Mathlib

/-!
Verification of the scalar symbolic-expression engine of `src/casadi/sx/sx.cpp`
(the `SX` handle over reference-counted expression nodes).

The engine is shallowly embedded as follows.

* A node is an `SXKind`; a heap (`Heap`) is the list of allocated nodes in
  allocation order, and a handle is the index (`NodeId`) of the node it
  references.  Reference identity (`SXNode* ==`, `SX::isEqual`) is index
  equality.  Allocation appends to the heap.
* C++ `double` values are modelled by `DV`: an exact rational together with the
  IEEE special values NaN and the two infinities.  All constants appearing in
  the modelled code paths are exact, so rounding never matters.
* The singleton constants of `casadi_limits<SX>` (sx.cpp lines 522-528) occupy
  the first seven heap cells, in their C++ construction order.
* Functions translated from sx.cpp carry the source line numbers.  Parts of the
  repository that the claims depend on but that are not under src/ (the node
  classes of sx_node.hpp / binary_sx_node.hpp and casadi_math.hpp) are modelled
  from the spec and marked `Modelled from the spec:`.
* `SX::add`/`SX::sub` (resp. `SX::mul`/`SX::div`) are mutually recursive in the
  C++ through NEG- (resp. INV-) operand unwrapping; on well-formed heaps the
  recursion terminates because operand indices strictly decrease, which is
  expressed here with an explicit fuel argument that is always sufficient for
  heaps reachable from the construction engine.
* Reference-count lifetime management (copy / assign / destroy) is modelled
  separately as a small state machine `RCState`/`step`, translated from
  sx.cpp lines 38-115.
-/

set_option maxHeartbeats 1000000

namespace Casadi

/-- Operation tags of expression nodes (the operation enumeration of
`casadi_math.hpp`; only the tags that `sx.cpp` uses are included).
`NONE` is the tag reported for leaf nodes. -/
inductive Op where
  | NONE | NEG | ADD | SUB | MUL | DIV | INV
  | POW | CONSTPOW | SQRT | FABS | SIGN | ERFINV
  | EXP | LOG | SIN | COS | TAN | STEP | EQUALITY | FMIN | FMAX | OP_PRINTME
deriving DecidableEq

/-- Value of a C++ `double` as used by the constant nodes: an exact rational or
one of the IEEE special values NaN / +inf / -inf.  The modelled code paths use
only exact constants, so rounding is irrelevant. -/
inductive DV where
  | fin (q : ℚ) | nan | pinf | ninf
deriving DecidableEq

/-- IEEE negation of a double value. -/
def dNeg : DV → DV
  | .fin q => .fin (-q)
  | .nan => .nan
  | .pinf => .ninf
  | .ninf => .pinf

/-- IEEE addition of double values (exact on finite operands). -/
def dAdd : DV → DV → DV
  | .fin p, .fin q => .fin (p + q)
  | .nan, _ => .nan
  | _, .nan => .nan
  | .pinf, .ninf => .nan
  | .ninf, .pinf => .nan
  | .pinf, _ => .pinf
  | _, .pinf => .pinf
  | .ninf, _ => .ninf
  | _, .ninf => .ninf

/-- IEEE subtraction, `a - b = a + (-b)` exactly. -/
def dSub (a b : DV) : DV := dAdd a (dNeg b)

/-- IEEE multiplication of double values (exact on finite operands). -/
def dMul : DV → DV → DV
  | .fin p, .fin q => .fin (p * q)
  | .nan, _ => .nan
  | _, .nan => .nan
  | .pinf, .pinf => .pinf
  | .pinf, .ninf => .ninf
  | .ninf, .pinf => .ninf
  | .ninf, .ninf => .pinf
  | .pinf, .fin q => if q = 0 then .nan else if 0 < q then .pinf else .ninf
  | .fin p, .pinf => if p = 0 then .nan else if 0 < p then .pinf else .ninf
  | .ninf, .fin q => if q = 0 then .nan else if 0 < q then .ninf else .pinf
  | .fin p, .ninf => if p = 0 then .nan else if 0 < p then .ninf else .pinf

/-- IEEE division of double values (exact on finite operands; the rational 0
plays the role of +0.0, which is the only zero the engine produces). -/
def dDiv : DV → DV → DV
  | .nan, _ => .nan
  | _, .nan => .nan
  | .fin p, .fin q =>
      if q = 0 then (if p = 0 then .nan else if 0 < p then .pinf else .ninf)
      else .fin (p / q)
  | .fin _, .pinf => .fin 0
  | .fin _, .ninf => .fin 0
  | .pinf, .fin q => if 0 ≤ q then .pinf else .ninf
  | .ninf, .fin q => if 0 ≤ q then .ninf else .pinf
  | .pinf, _ => .nan
  | .ninf, _ => .nan

/-- IEEE `==` on double values (NaN compares unequal to everything). -/
def dEq : DV → DV → Bool
  | .fin p, .fin q => p == q
  | .pinf, .pinf => true
  | .ninf, .ninf => true
  | _, _ => false

/-- IEEE `>=` on double values (false whenever NaN is involved). -/
def dGe : DV → DV → Bool
  | .fin p, .fin q => decide (q ≤ p)
  | .nan, _ => false
  | _, .nan => false
  | .pinf, _ => true
  | _, .pinf => false
  | _, .ninf => true
  | .ninf, .fin _ => false

/-- A heap index playing the role of an `SXNode*`. -/
abbrev NodeId := Nat

/-- Node variants.  Translated from the node class hierarchy declared outside
src/ and described by the spec (§3 data model): the dedicated singleton classes
ZeroSXNode / OneSXNode / MinusOneSXNode / NanSXNode / InfSXNode /
MinusInfSXNode, the cached IntegerSXNode / RealtypeSXNode constants,
SymbolicSXNode, and BinarySXNode holding one or two operands.  The `two`
singleton is `IntegerSXNode::create(2)` (sx.cpp line 524), so it has no
dedicated variant. -/
inductive SXKind where
  | kZero | kOne | kMinusOne | kNan | kInf | kMinusInf
  | kInt (v : ℤ) | kReal (q : ℚ) | kSym (name : String)
  | kUnary (op : Op) (d : NodeId)
  | kBinary (op : Op) (d0 d1 : NodeId)
deriving DecidableEq

/-- The allocated nodes, in allocation order. -/
abbrev Heap := List SXKind

/-- Dereference a node id (out-of-range reads never occur on the modelled
paths; they default to the NaN node kind). -/
def Heap.get (s : Heap) (i : NodeId) : SXKind := s.getD i .kNan

/-- Modelled from the spec: SXNode::isZero (only the dedicated zero singleton
class reports zero). -/
def isZeroK : SXKind → Bool | .kZero => true | _ => false

/-- Modelled from the spec: SXNode::isOne. -/
def isOneK : SXKind → Bool | .kOne => true | _ => false

/-- Modelled from the spec: SXNode::isMinusOne. -/
def isMinusOneK : SXKind → Bool | .kMinusOne => true | _ => false

/-- Modelled from the spec: SXNode::isNan. -/
def isNanK : SXKind → Bool | .kNan => true | _ => false

/-- Modelled from the spec: SXNode::isInf. -/
def isInfK : SXKind → Bool | .kInf => true | _ => false

/-- Modelled from the spec: SXNode::isMinusInf. -/
def isMinusInfK : SXKind → Bool | .kMinusInf => true | _ => false

/-- Modelled from the spec: SXNode::isConstant — true on every constant
variant (§3: the leaf variants other than the symbolic atom). -/
def isConstantK : SXKind → Bool
  | .kZero | .kOne | .kMinusOne | .kNan | .kInf | .kMinusInf
  | .kInt _ | .kReal _ => true
  | _ => false

/-- Modelled from the spec: SXNode::isInteger — the integer-valued constant
variants (the small-integer singletons and IntegerSXNode). -/
def isIntegerK : SXKind → Bool
  | .kZero | .kOne | .kMinusOne | .kInt _ => true
  | _ => false

/-- Modelled from the spec: SXNode::isSymbolic. -/
def isSymbolicK : SXKind → Bool | .kSym _ => true | _ => false

/-- Modelled from the spec: SXNode::hasDep (`SX::isBinary`), true on operation
nodes with one or two operands. -/
def hasDepK : SXKind → Bool
  | .kUnary _ _ => true | .kBinary _ _ _ => true | _ => false

/-- Modelled from the spec: SXNode::getOp (`NONE` for leaves, §3). -/
def getOpK : SXKind → Op
  | .kUnary op _ => op | .kBinary op _ _ => op | _ => .NONE

/-- Modelled from the spec: SXNode::dep(0). -/
def dep0K : SXKind → NodeId
  | .kUnary _ d => d | .kBinary _ d _ => d | _ => 0

/-- Modelled from the spec: SXNode::dep(1) (requesting it on a node of smaller
arity is a caller error, §7; the modelled code paths never do). -/
def dep1K : SXKind → NodeId
  | .kBinary _ _ d => d | _ => 0

/-- Operand indices of a node. -/
def depsOf : SXKind → List NodeId
  | .kUnary _ d => [d] | .kBinary _ d0 d1 => [d0, d1] | _ => []

/-- Modelled from the spec: SXNode::getValue on the constant variants
(requesting it elsewhere is a TypeMismatch caller error, §7; the modelled code
paths always guard it with isConstant). -/
def getValueK : SXKind → DV
  | .kZero => .fin 0
  | .kOne => .fin 1
  | .kMinusOne => .fin (-1)
  | .kNan => .nan
  | .kInf => .pinf
  | .kMinusInf => .ninf
  | .kInt v => .fin v
  | .kReal q => .fin q
  | _ => .nan

/-- Modelled from the spec: SXNode::getIntValue on the integer variants. -/
def getIntValueK : SXKind → ℤ
  | .kZero => 0 | .kOne => 1 | .kMinusOne => -1 | .kInt v => v | _ => 0

/-- Heap index of `casadi_limits<SX>::zero` (sx.cpp line 522). -/
def zeroId : NodeId := 0
/-- Heap index of `casadi_limits<SX>::one` (line 523). -/
def oneId : NodeId := 1
/-- Heap index of `casadi_limits<SX>::two` (line 524, an IntegerSXNode). -/
def twoId : NodeId := 2
/-- Heap index of `casadi_limits<SX>::minus_one` (line 525). -/
def minusOneId : NodeId := 3
/-- Heap index of `casadi_limits<SX>::nan` (line 526). -/
def nanId : NodeId := 4
/-- Heap index of `casadi_limits<SX>::inf` (line 527). -/
def infId : NodeId := 5
/-- Heap index of `casadi_limits<SX>::minus_inf` (line 528). -/
def minusInfId : NodeId := 6

/-- The singleton constants of `casadi_limits<SX>`, in their construction order
(sx.cpp lines 522-528). -/
def initHeap : Heap :=
  [.kZero, .kOne, .kInt 2, .kMinusOne, .kNan, .kInf, .kMinusInf]

/-- SX::SX() (sx.cpp lines 38-41): a default-constructed handle references the
NaN singleton node. -/
def sxDefault : NodeId := nanId

/-- Modelled from the spec: IntegerSXNode::create with the CACHING_CONSTANTS
cache (sx.cpp lines 33-36 allocate its storage): an existing node for the value
is reused, otherwise a fresh one is allocated. -/
def intCreate (s : Heap) (v : ℤ) : Heap × NodeId :=
  match s.findIdx? (fun k => k == .kInt v) with
  | some i => (s, i)
  | none => (s ++ [.kInt v], s.length)

/-- Modelled from the spec: RealtypeSXNode::create with the cache (sx.cpp
lines 33-36). -/
def realCreate (s : Heap) (q : ℚ) : Heap × NodeId :=
  match s.findIdx? (fun k => k == .kReal q) with
  | some i => (s, i)
  | none => (s ++ [.kReal q], s.length)

/-- SX::SX(double) (sx.cpp lines 56-71).  The C++ integrality test
`val - int(val) == 0` holds for a finite value exactly when its denominator is
1 (int overflow on huge doubles is ignored; the claims use small values), and
is false for NaN and the infinities, which then hit the isnan/isinf branches. -/
def fromDouble (s : Heap) (v : DV) : Heap × NodeId :=
  match v with
  | .fin q =>
    if q.den = 1 then
      if q.num = 0 then (s, zeroId)
      else if q.num = 1 then (s, oneId)
      else if q.num = 2 then (s, twoId)
      else if q.num = -1 then (s, minusOneId)
      else intCreate s q.num
    else realCreate s q
  | .nan => (s, nanId)
  | .pinf => (s, infId)
  | .ninf => (s, minusInfId)

/-- Modelled from the spec: `operation_checker<CommChecker>` lives in
casadi_math.hpp, which is not under src/.  The spec attests addition as
commutative and subtraction as not (§8 "equivalence commutativity"); addition
and multiplication are the commutative tags used by the simplification rules
modelled here. -/
def commChecker : Op → Bool
  | .ADD => true | .MUL => true | _ => false

/-- Modelled from the spec: the default `depth` argument of `SX::isEquivalent`
is declared in sx.hpp, not under src/; §4.3 calls it implementation-chosen and
recommends a small fixed default such as 1. -/
def defaultEqDepth : Nat := 1

/-- SX::isEquivalent (sx.cpp lines 253-263).  The constant-value comparison on
line 255 ends in `;` and is a no-op, so it is not represented.  The C++ depth
is an `int`; a negative depth never returns and is modelled by `Nat`.  At depth
0 only reference identity remains, exactly as in the source (the identity test
precedes the depth test). -/
def isEquivalent (s : Heap) : NodeId → NodeId → Nat → Bool
  | x, y, 0 => x == y
  | x, y, depth + 1 =>
    if x == y then true
    else if hasDepK (s.get x) && hasDepK (s.get y)
        && (getOpK (s.get x) == getOpK (s.get y)) then
      (isEquivalent s (dep0K (s.get x)) (dep0K (s.get y)) depth
        && isEquivalent s (dep1K (s.get x)) (dep1K (s.get y)) depth)
      || (commChecker (getOpK (s.get x))
        && isEquivalent s (dep0K (s.get x)) (dep1K (s.get y)) depth
        && isEquivalent s (dep1K (s.get x)) (dep0K (s.get y)) depth)
    else false

/-- SX::isDoubled (sx.cpp lines 245-247). -/
def isDoubled (s : Heap) (x : NodeId) : Bool :=
  hasDepK (s.get x) && (getOpK (s.get x) == .ADD)
    && isEquivalent s (dep0K (s.get x)) (dep1K (s.get x)) defaultEqDepth

/-- SX::isSquared (sx.cpp lines 249-251). -/
def isSquaredH (s : Heap) (x : NodeId) : Bool :=
  hasDepK (s.get x) && (getOpK (s.get x) == .MUL)
    && isEquivalent s (dep0K (s.get x)) (dep1K (s.get x)) defaultEqDepth

/-- SX::isOp (sx.cpp lines 491-493). -/
def isOpH (s : Heap) (op : Op) (x : NodeId) : Bool :=
  hasDepK (s.get x) && (op == getOpK (s.get x))

/-- Modelled from the spec: numeric semantics of a unary operation tag, used by
the evaluation relation (only the tags whose exact semantics matter to the
claims are interpreted). -/
def evalUop : Op → DV → Option DV
  | .NEG, v => some (dNeg v)
  | .INV, v => some (dDiv (.fin 1) v)
  | _, _ => none

/-- Modelled from the spec: numeric semantics of a binary operation tag, which
is also the constant-folding table of the construction engine (the four
arithmetic operations; the spec folds no other tag — transcendental unary ops
allocate after their structural shortcuts, §4.2). -/
def evalBop : Op → DV → DV → Option DV
  | .ADD, a, b => some (dAdd a b)
  | .SUB, a, b => some (dSub a b)
  | .MUL, a, b => some (dMul a b)
  | .DIV, a, b => some (dDiv a b)
  | _, _, _ => none

/-- Modelled from the spec: BinarySXNode::createT (two-operand form), declared
outside src/.  Per the spec's glossary ("Constant folding") and §4.2/§8 (an
all-constant `a-b` "evaluates numerically"), an arithmetic operation whose
operands are all constants folds to the canonical constant via SX::SX(double);
otherwise a fresh operation node is allocated. -/
def createBinary (s : Heap) (op : Op) (x y : NodeId) : Heap × NodeId :=
  if isConstantK (s.get x) && isConstantK (s.get y) then
    match evalBop op (getValueK (s.get x)) (getValueK (s.get y)) with
    | some v => fromDouble s v
    | none => (s ++ [.kBinary op x y], s.length)
  else (s ++ [.kBinary op x y], s.length)

/-- Modelled from the spec: BinarySXNode::createT (one-operand form): a unary
operation node is allocated (the spec specifies no constant folding for unary
tags — §4.2 lets transcendental ops allocate when no shortcut applies, and
sx.cpp handles the constant cases of NEG and SIGN itself). -/
def createUnary (s : Heap) (op : Op) (x : NodeId) : Heap × NodeId :=
  (s ++ [.kUnary op x], s.length)

/-- SX::operator- (sx.cpp lines 140-151). -/
def negH (s : Heap) (x : NodeId) : Heap × NodeId :=
  if hasDepK (s.get x) && (getOpK (s.get x) == .NEG) then (s, dep0K (s.get x))
  else if isZeroK (s.get x) then (s, zeroId)
  else if isMinusOneK (s.get x) then (s, oneId)
  else if isOneK (s.get x) then (s, minusOneId)
  else createUnary s .NEG x

/-- SX::inv (sx.cpp lines 302-308). -/
def invH (s : Heap) (x : NodeId) : Heap × NodeId :=
  if hasDepK (s.get x) && (getOpK (s.get x) == .INV) then (s, dep0K (s.get x))
  else createUnary s .INV x

/-- SX::add and SX::sub (sx.cpp lines 172-213) in one fuel-indexed function
(the selector `sel` is `false` for add, `true` for sub).  The two are mutually
recursive in the source through NEG-operand unwrapping (`x + (-y) → x - y` and
`x - (-y) → x + y`, where `operator-` unwraps the NEG node to its operand);
the recursion terminates on well-formed heaps because operand indices shrink,
which the fuel makes explicit.  Fuel 0 (unreachable at the wrappers' fuel on
such heaps) falls back to plain allocation. -/
def addsubF (s : Heap) : Nat → Bool → NodeId → NodeId → Heap × NodeId
  | 0, sel, x, y => createBinary s (if sel then .SUB else .ADD) x y
  | fuel + 1, false, x, y =>
    if isZeroK (s.get x) then (s, y)
    else if isZeroK (s.get y) then (s, x)
    else if hasDepK (s.get y) && (getOpK (s.get y) == .NEG) then
      addsubF s fuel true x (dep0K (s.get y))
    else if hasDepK (s.get x) && (getOpK (s.get x) == .NEG) then
      addsubF s fuel true y (dep0K (s.get x))
    else if hasDepK (s.get x) && (getOpK (s.get x) == .MUL)
        && hasDepK (s.get y) && (getOpK (s.get y) == .MUL)
        && isConstantK (s.get (dep0K (s.get x)))
        && dEq (getValueK (s.get (dep0K (s.get x)))) (.fin (1/2))
        && isConstantK (s.get (dep0K (s.get y)))
        && dEq (getValueK (s.get (dep0K (s.get y)))) (.fin (1/2))
        && isEquivalent s (dep1K (s.get y)) (dep1K (s.get x)) defaultEqDepth then
      (s, dep1K (s.get x))
    else if hasDepK (s.get x) && (getOpK (s.get x) == .DIV)
        && hasDepK (s.get y) && (getOpK (s.get y) == .DIV)
        && isConstantK (s.get (dep1K (s.get x)))
        && dEq (getValueK (s.get (dep1K (s.get x)))) (.fin 2)
        && isConstantK (s.get (dep1K (s.get y)))
        && dEq (getValueK (s.get (dep1K (s.get y)))) (.fin 2)
        && isEquivalent s (dep0K (s.get y)) (dep0K (s.get x)) defaultEqDepth then
      (s, dep0K (s.get x))
    else createBinary s .ADD x y
  | fuel + 1, true, x, y =>
    if isZeroK (s.get y) then (s, x)
    else if isZeroK (s.get x) then negH s y
    else if isEquivalent s x y defaultEqDepth then (s, zeroId)
    else if hasDepK (s.get y) && (getOpK (s.get y) == .NEG) then
      addsubF s fuel false x (dep0K (s.get y))
    else createBinary s .SUB x y

/-- SX::add entry point; the fuel bounds the NEG-unwrapping chain, whose
length is below any operand index bound on well-formed heaps. -/
def addW (s : Heap) (x y : NodeId) : Heap × NodeId :=
  addsubF s (x + y + 2) false x y

/-- SX::sub entry point. -/
def subW (s : Heap) (x y : NodeId) : Heap × NodeId :=
  addsubF s (x + y + 2) true x y

/-- SX::mul and SX::div (sx.cpp lines 215-243 and 265-300) in one
fuel-indexed function (the selector `sel` is `false` for mul, `true` for
div); the two are mutually recursive in the source through INV-operand
unwrapping and the constant-to-the-left swap of mul.  In `div`,
`y.isEqual(2)` converts 2 through SX::SX(double), yielding the `two`
singleton, and compares node identity. -/
def muldivF (s : Heap) : Nat → Bool → NodeId → NodeId → Heap × NodeId
  | 0, sel, x, y => createBinary s (if sel then .DIV else .MUL) x y
  | fuel + 1, false, x, y =>
    if !isConstantK (s.get x) && isConstantK (s.get y) then
      muldivF s fuel false y x
    else if isZeroK (s.get x) || isZeroK (s.get y) then (s, zeroId)
    else if isOneK (s.get x) then (s, y)
    else if isOneK (s.get y) then (s, x)
    else if isMinusOneK (s.get y) then negH s x
    else if isMinusOneK (s.get x) then negH s y
    else if hasDepK (s.get y) && (getOpK (s.get y) == .INV) then
      muldivF s fuel true x (dep0K (s.get y))
    else if hasDepK (s.get x) && (getOpK (s.get x) == .INV) then
      muldivF s fuel true y (dep0K (s.get x))
    else if isConstantK (s.get x)
        && hasDepK (s.get y) && (getOpK (s.get y) == .MUL)
        && isConstantK (s.get (dep0K (s.get y)))
        && dEq (dMul (getValueK (s.get x)) (getValueK (s.get (dep0K (s.get y)))))
             (.fin 1) then
      (s, dep1K (s.get y))
    else if isConstantK (s.get x)
        && hasDepK (s.get y) && (getOpK (s.get y) == .DIV)
        && isConstantK (s.get (dep1K (s.get y)))
        && dEq (getValueK (s.get x)) (getValueK (s.get (dep1K (s.get y)))) then
      (s, dep0K (s.get y))
    else if hasDepK (s.get x) && (getOpK (s.get x) == .DIV)
        && isEquivalent s (dep1K (s.get x)) y defaultEqDepth then
      (s, dep0K (s.get x))
    else if hasDepK (s.get y) && (getOpK (s.get y) == .DIV)
        && isEquivalent s (dep1K (s.get y)) x defaultEqDepth then
      (s, dep0K (s.get y))
    else createBinary s .MUL x y
  | fuel + 1, true, x, y =>
    if isZeroK (s.get y) then (s, nanId)
    else if isZeroK (s.get x) then (s, zeroId)
    else if isOneK (s.get y) then (s, x)
    else if isEquivalent s x y defaultEqDepth then (s, oneId)
    else if isDoubled s x && (y == twoId) then (s, dep0K (s.get x))
    else if isOpH s .MUL x
        && isEquivalent s y (dep0K (s.get x)) defaultEqDepth then
      (s, dep1K (s.get x))
    else if isOpH s .MUL x
        && isEquivalent s y (dep1K (s.get x)) defaultEqDepth then
      (s, dep0K (s.get x))
    else if isOneK (s.get x) then invH s y
    else if hasDepK (s.get y) && (getOpK (s.get y) == .INV) then
      muldivF s fuel false x (dep0K (s.get y))
    else if isDoubled s x && isDoubled s y then
      muldivF s fuel true (dep0K (s.get x)) (dep0K (s.get y))
    else if isConstantK (s.get y)
        && hasDepK (s.get x) && (getOpK (s.get x) == .DIV)
        && isConstantK (s.get (dep1K (s.get x)))
        && dEq (dMul (getValueK (s.get y)) (getValueK (s.get (dep1K (s.get x)))))
             (.fin 1) then
      (s, dep0K (s.get x))
    else if hasDepK (s.get y) && (getOpK (s.get y) == .MUL)
        && isEquivalent s (dep1K (s.get y)) x defaultEqDepth then
      createBinary s .DIV oneId (dep0K (s.get y))
    else if hasDepK (s.get x) && (getOpK (s.get x) == .NEG)
        && isEquivalent s (dep0K (s.get x)) y defaultEqDepth then
      (s, minusOneId)
    else if hasDepK (s.get y) && (getOpK (s.get y) == .NEG)
        && isEquivalent s (dep0K (s.get y)) x defaultEqDepth then
      (s, minusOneId)
    else if hasDepK (s.get y) && (getOpK (s.get y) == .NEG)
        && hasDepK (s.get x) && (getOpK (s.get x) == .NEG)
        && isEquivalent s (dep0K (s.get x)) (dep0K (s.get y)) defaultEqDepth then
      (s, oneId)
    else createBinary s .DIV x y

/-- SX::mul entry point. -/
def mulW (s : Heap) (x y : NodeId) : Heap × NodeId :=
  muldivF s (2 * (x + y) + 4) false x y

/-- SX::div entry point. -/
def divW (s : Heap) (x y : NodeId) : Heap × NodeId :=
  muldivF s (2 * (x + y) + 4) true x y

/-- SX::fabs (sx.cpp lines 649-658). -/
def fabsH (s : Heap) (x : NodeId) : Heap × NodeId :=
  if isConstantK (s.get x) && dGe (getValueK (s.get x)) (.fin 0) then (s, x)
  else if isOpH s .FABS x then (s, x)
  else if isSquaredH s x then (s, x)
  else createUnary s .FABS x

/-- SX::sqrt (sx.cpp lines 574-581). -/
def sqrtH (s : Heap) (x : NodeId) : Heap × NodeId :=
  if isOneK (s.get x) || isZeroK (s.get x) then (s, x)
  else if isSquaredH s x then fabsH s (dep0K (s.get x))
  else createUnary s .SQRT x

/-- SX::__pow__, integer-exponent path (sx.cpp lines 678-691).  A C++
recursion `pow(*this, k)` first converts the int `k` to an SX through
SX::SX(double) (reusing or allocating the canonical constant — that heap
effect is performed here) and `__pow__` then re-extracts `k` with
`getIntValue`, so the recursion is taken directly on `k`.  All `%` and `/`
uses happen at nonnegative exponents, where the C++ truncating semantics
agrees with Lean's. -/
def powIter (s : Heap) (x : NodeId) (nn : ℤ) : Heap × NodeId :=
  if nn = 0 then (s, oneId)
  else if 100 < nn ∨ nn < -100 then
    let p := fromDouble s (.fin (nn : ℚ))
    createBinary p.1 .CONSTPOW x p.2
  else if nn < 0 then
    let e := fromDouble s (.fin ((-nn : ℤ) : ℚ))
    let p := powIter e.1 x (-nn)
    divW p.1 oneId p.2
  else if nn % 2 = 1 then
    let e := fromDouble s (.fin ((nn - 1 : ℤ) : ℚ))
    let p := powIter e.1 x (nn - 1)
    mulW p.1 x p.2
  else
    let e := fromDouble s (.fin ((nn / 2 : ℤ) : ℚ))
    let p := powIter e.1 x (nn / 2)
    mulW p.1 p.2 p.2
termination_by 2 * nn.natAbs + (if nn < 0 then 1 else 0)
decreasing_by
  all_goals simp_wf
  all_goals split_ifs <;> omega

/-- SX::__pow__ (sx.cpp lines 676-700): the outer dispatch on the exponent
node. -/
def powOp (s : Heap) (x n : NodeId) : Heap × NodeId :=
  if isConstantK (s.get n) then
    if isIntegerK (s.get n) then powIter s x (getIntValueK (s.get n))
    else if dEq (getValueK (s.get n)) (.fin (1/2)) then sqrtH s x
    else createBinary s .CONSTPOW x n
  else createBinary s .POW x n

/-- operator>= (sx.cpp lines 353-362): move everything to one side, reduce a
perfect square or absolute value to 1, evaluate a constant difference
numerically (the bool converts through SX::SX(double) to the 1 or 0
singleton), otherwise allocate a STEP node. -/
def geW (s : Heap) (a b : NodeId) : Heap × NodeId :=
  let p := subW s a b
  if isSquaredH p.1 p.2 || isOpH p.1 .FABS p.2 then (p.1, oneId)
  else if isConstantK (p.1.get p.2) then
    (p.1, if dGe (getValueK (p.1.get p.2)) (.fin 0) then oneId else zeroId)
  else createUnary p.1 .STEP p.2

/-- operator<= (sx.cpp lines 349-351): `a<=b` is `b>=a`. -/
def leW (s : Heap) (a b : NodeId) : Heap × NodeId := geW s b a

/-- operator== (sx.cpp lines 380-387); `isEqual` is node identity (modelled
from the spec §4.3, SXNode::isEqual is declared outside src/). -/
def eqW (s : Heap) (x y : NodeId) : Heap × NodeId :=
  if x == y then (s, oneId)
  else if isConstantK (s.get x) && isConstantK (s.get y) then (s, zeroId)
  else createBinary s .EQUALITY x y

/-- if_else (sx.cpp lines 409-411): `if_false + (if_true-if_false)*cond`,
built purely from the arithmetic operations. -/
def if_else (s : Heap) (cond t f : NodeId) : Heap × NodeId :=
  let d := subW s t f
  let m := mulW d.1 d.2 cond
  addW m.1 f m.2

/-- Heap extension: allocation only ever appends. -/
def heapLE (s t : Heap) : Prop := ∃ u, t = s ++ u

/-- Modelled from the spec: the arity registered for an operation tag in
casadi_math.hpp (§3 invariant: operand count equals the registered arity). -/
def opArity : Op → Nat
  | .NONE => 0
  | .NEG | .INV | .SQRT | .FABS | .SIGN | .ERFINV
  | .EXP | .LOG | .SIN | .COS | .TAN | .STEP => 1
  | _ => 2

/-- Arity conformance of one node kind (§3 invariant). -/
def arityOkK : SXKind → Bool
  | .kUnary op _ => opArity op == 1
  | .kBinary op _ _ => opArity op == 2
  | _ => true

/-- Well-formedness of one heap cell: operands precede their node (the graph
is a DAG built bottom-up), the spec's arity invariant holds, and the singleton
node kinds occur only at their `casadi_limits` indices (they are constructed
once, before anything else). -/
def nodeOk (s : Heap) (i : NodeId) : Prop :=
  (∀ d ∈ depsOf (s.get i), d < i) ∧
  arityOkK (s.get i) = true ∧
  (s.get i = .kZero → i = zeroId) ∧ (s.get i = .kOne → i = oneId) ∧
  (s.get i = .kMinusOne → i = minusOneId) ∧ (s.get i = .kNan → i = nanId) ∧
  (s.get i = .kInf → i = infId) ∧ (s.get i = .kMinusInf → i = minusInfId)

/-- Heaps reachable from the construction engine: the seven singletons sit in
front, and every cell is well-formed. -/
def heapOK (s : Heap) : Prop :=
  s.take 7 = initHeap ∧ ∀ i ∈ List.range s.length, nodeOk s i

instance (s : Heap) (i : NodeId) : Decidable (nodeOk s i) := by
  unfold nodeOk; infer_instance

instance (s : Heap) : Decidable (heapOK s) := by
  unfold heapOK; infer_instance

/-- Numeric evaluation of a node under an assignment of (finite) values to the
symbols, fuel-indexed (operands precede their node, so fuel `x + 1` settles
node `x` on a well-formed heap).  `none` means the value is not determined by
the modelled semantics. -/
def evalF (s : Heap) (σ : String → ℚ) : Nat → NodeId → Option DV
  | 0, _ => none
  | fuel + 1, x =>
    match s.get x with
    | .kSym n => some (.fin (σ n))
    | .kUnary op d => (evalF s σ fuel d).bind (evalUop op)
    | .kBinary op d0 d1 =>
      (evalF s σ fuel d0).bind fun a =>
        (evalF s σ fuel d1).bind fun b => evalBop op a b
    | k => some (getValueK k)

/-- Numeric evaluation of node `x`. -/
def evalN (s : Heap) (σ : String → ℚ) (x : NodeId) : Option DV :=
  evalF s σ (x + 1) x

/-- Number of MUL nodes in a heap. -/
def countMul (s : Heap) : Nat :=
  s.countP fun k => match k with | .kBinary .MUL _ _ => true | _ => false

/-- Number of CONSTPOW nodes in a heap. -/
def countConstpow (s : Heap) : Nat :=
  s.countP fun k => match k with | .kBinary .CONSTPOW _ _ => true | _ => false

/-- Output alphabet of the textual rendering (the exact token set is an
external formatting concern, spec §6; only the ellipsis marker matters). -/
inductive Tok where
  | ellipsis | lp | rp | sym (name : String) | num (v : DV) | opTok (o : Op)
deriving DecidableEq

/-- SX::print (sx.cpp lines 123-130) together with the node-level rendering it
calls, which is modelled from the spec (§4.4: rendering visits nodes
recursively, each visit consumes one unit of the remaining-call budget, and an
exhausted budget emits the ellipsis marker instead of recursing).  The C++
threads `remaining_calls` by reference; here it is threaded through the
result.  The fuel argument only serves termination: whenever the budget is at
most the fuel the fuel cannot run out first, and the wrapper `printSX`
provides such a fuel. -/
def printF (s : Heap) : Nat → ℤ → NodeId → List Tok × ℤ
  | 0, rem, _ => ([.ellipsis], rem)
  | fuel + 1, rem, x =>
    if 0 < rem then
      let r1 := rem - 1
      match s.get x with
      | .kUnary op d =>
        let p := printF s fuel r1 d
        (.opTok op :: .lp :: (p.1 ++ [.rp]), p.2)
      | .kBinary op d0 d1 =>
        let p0 := printF s fuel r1 d0
        let p1 := printF s fuel p0.2 d1
        (.lp :: (p0.1 ++ .opTok op :: (p1.1 ++ [.rp])), p1.2)
      | .kSym n => ([.sym n], r1)
      | k => ([.num (getValueK k)], r1)
    else ([.ellipsis], rem)

/-- Render node `x` with a remaining-call budget. -/
def printSX (s : Heap) (x : NodeId) (rem : ℤ) : List Tok × ℤ :=
  printF s rem.toNat rem x

/-- Size of the rendering tree of a node (shared subgraphs counted once per
occurrence), fuel-indexed like `evalF`. -/
def treeSizeF (s : Heap) : Nat → NodeId → Nat
  | 0, _ => 1
  | fuel + 1, x =>
    match s.get x with
    | .kUnary _ d => 1 + treeSizeF s fuel d
    | .kBinary _ d0 d1 => 1 + treeSizeF s fuel d0 + treeSizeF s fuel d1
    | _ => 1

/-- Size of the rendering tree of node `x` (exact on well-formed heaps). -/
def treeSize (s : Heap) (x : NodeId) : Nat := treeSizeF s (x + 1) x

/-- SX::max_num_calls_in_print_ initializer (sx.cpp line 718). -/
def maxNumCallsInPrintDefault : ℤ := 10000

/-- SX::setMaxNumCallsInPrint (sx.cpp lines 720-722), acting on the
process-wide budget value. -/
def setMaxNumCallsInPrint (_cur n : ℤ) : ℤ := n

/-- SX::getMaxNumCallsInPrint (sx.cpp lines 724-726). -/
def getMaxNumCallsInPrint (cur : ℤ) : ℤ := cur

/-- State of the reference-count lifetime model: the live handles (handle id,
referenced node id) and the live nodes with the count field each carries.  A
node absent from `nodes` is deallocated. -/
structure RCState where
  handles : List (Nat × Nat)
  nodes : List (Nat × Nat)
deriving DecidableEq

/-- Node referenced by a handle. -/
def hfind (hs : List (Nat × Nat)) (h : Nat) : Option Nat :=
  (hs.find? fun p => p.1 == h).map Prod.snd

/-- Number of live handles referencing node `n`. -/
def refCount (hs : List (Nat × Nat)) (n : Nat) : Nat :=
  hs.countP fun p => p.2 == n

/-- `node->count++` on node `n` (the node object is unique, so the first
matching entry is the node). -/
def bump : List (Nat × Nat) → Nat → List (Nat × Nat)
  | [], _ => []
  | p :: t, n => if p.1 = n then (p.1, p.2 + 1) :: t else p :: bump t n

/-- `if(--node->count == 0) delete node` on node `n` (sx.cpp lines 79 and
87). -/
def decDel : List (Nat × Nat) → Nat → List (Nat × Nat)
  | [], _ => []
  | p :: t, n =>
    if p.1 = n then (if p.2 ≤ 1 then t else (p.1, p.2 - 1) :: t)
    else p :: decDel t n

/-- Repoint handle `h` at node `n`. -/
def setNode : List (Nat × Nat) → Nat → Nat → List (Nat × Nat)
  | [], _, _ => []
  | p :: t, h, n => if p.1 = h then (p.1, n) :: t else p :: setNode t h n

/-- Remove handle `h`. -/
def eraseKey : List (Nat × Nat) → Nat → List (Nat × Nat)
  | [], _ => []
  | p :: t, h => if p.1 = h then t else p :: eraseKey t h

/-- The handle lifecycle operations of sx.cpp: `newNode` wraps a freshly
allocated node in a fresh handle (SX::SX(SXNode*,bool), lines 43-45, on a node
with count 0 — e.g. SX::SX(const string&), lines 73-76); `copy` is the copy
constructor (lines 51-54); `assign` is operator= (lines 82-93); `destroy` is
the destructor (lines 78-80). -/
inductive RCOp where
  | newNode (h n : Nat)
  | copy (h src : Nat)
  | assign (dst src : Nat)
  | destroy (h : Nat)
deriving DecidableEq

/-- One lifecycle operation.  Ill-formed requests (an unknown handle, or a
fresh-handle id that is already live) leave the state unchanged. -/
def rcStep (s : RCState) : RCOp → RCState
  | .newNode h n =>
    if (hfind s.handles h).isSome || n ∈ s.nodes.map Prod.fst then s
    else ⟨(h, n) :: s.handles, (n, 1) :: s.nodes⟩
  | .copy h src =>
    match hfind s.handles src with
    | none => s
    | some n =>
      if (hfind s.handles h).isSome then s
      else ⟨(h, n) :: s.handles, bump s.nodes n⟩
  | .assign dst src =>
    match hfind s.handles dst, hfind s.handles src with
    | some nold, some nnew =>
      if nold = nnew then s
      else ⟨setNode s.handles dst nnew, bump (decDel s.nodes nold) nnew⟩
    | _, _ => s
  | .destroy h =>
    match hfind s.handles h with
    | none => s
    | some n => ⟨eraseKey s.handles h, decDel s.nodes n⟩

/-- Run a sequence of lifecycle operations. -/
def rcRun (s : RCState) (ops : List RCOp) : RCState := ops.foldl rcStep s

/-- The reference-count invariant: handle ids and node ids are unique, every
live node's count field equals the number of live handles referencing it and
is positive (a node is deallocated exactly when its count reaches zero), and
every live handle references a live node. -/
def rcInv (s : RCState) : Prop :=
  (s.handles.map Prod.fst).Nodup ∧ (s.nodes.map Prod.fst).Nodup ∧
  (∀ p ∈ s.nodes, p.2 = refCount s.handles p.1 ∧ 0 < p.2) ∧
  (∀ q ∈ s.handles, q.2 ∈ s.nodes.map Prod.fst)

instance (s : RCState) : Decidable (rcInv s) := by
  unfold rcInv; infer_instance

theorem heapOK_decomp {s : Heap} (h : heapOK s) : ∃ u, s = initHeap ++ u :=
  ⟨s.drop 7, by rw [← h.1]; exact (List.take_append_drop 7 s).symm⟩

theorem heapOK_len {s : Heap} (h : heapOK s) : 7 ≤ s.length := by
  obtain ⟨u, rfl⟩ := heapOK_decomp h
  simp [initHeap]

theorem get_append_left {s : Heap} (u : Heap) {i : NodeId} (h : i < s.length) :
    Heap.get (s ++ u) i = s.get i := by
  unfold Heap.get
  rw [List.getD_append _ _ _ _ h]

theorem get_concat (s : Heap) (k : SXKind) : Heap.get (s ++ [k]) s.length = k := by
  unfold Heap.get
  simp [List.getD_eq_getElem?_getD, List.getElem?_concat_length]

theorem heapOK_singletons {s : Heap} (h : heapOK s) :
    s.get 0 = .kZero ∧ s.get 1 = .kOne ∧ s.get 2 = .kInt 2 ∧
    s.get 3 = .kMinusOne ∧ s.get 4 = .kNan ∧ s.get 5 = .kInf ∧
    s.get 6 = .kMinusInf := by
  obtain ⟨u, rfl⟩ := heapOK_decomp h
  refine ⟨?_, ?_, ?_, ?_, ?_, ?_, ?_⟩ <;>
    rw [get_append_left u (by simp [initHeap])] <;> rfl

theorem isConstantK_hasDepK {k : SXKind} (h : isConstantK k = true) :
    hasDepK k = false := by
  cases k <;> simp_all [isConstantK, hasDepK]

/-- C1: constructing a handle through SX::SX(double) from any of the values
0, 1, 2, -1, NaN, +inf, -inf returns the corresponding `casadi_limits`
singleton index — on any heap the result is the fixed singleton id and the
heap is unchanged (no allocation), so any two such constructions are
reference-identical (`isEqual`). -/
theorem c1_singleton_canonicalization :
    ∀ s s' : Heap,
      fromDouble s (.fin 0) = (s, zeroId) ∧
      fromDouble s (.fin 1) = (s, oneId) ∧
      fromDouble s (.fin 2) = (s, twoId) ∧
      fromDouble s (.fin (-1)) = (s, minusOneId) ∧
      fromDouble s .nan = (s, nanId) ∧
      fromDouble s .pinf = (s, infId) ∧
      fromDouble s .ninf = (s, minusInfId) ∧
      (fromDouble s (.fin 0)).2 = (fromDouble s' (.fin 0)).2 ∧
      (fromDouble s (.fin 1)).2 = (fromDouble s' (.fin 1)).2 ∧
      (fromDouble s (.fin 2)).2 = (fromDouble s' (.fin 2)).2 ∧
      (fromDouble s (.fin (-1))).2 = (fromDouble s' (.fin (-1))).2 ∧
      (fromDouble s .nan).2 = (fromDouble s' .nan).2 ∧
      (fromDouble s .pinf).2 = (fromDouble s' .pinf).2 ∧
      (fromDouble s .ninf).2 = (fromDouble s' .ninf).2 := by
  intro s s'
  exact ⟨rfl, rfl, rfl, rfl, rfl, rfl, rfl,
    rfl, rfl, rfl, rfl, rfl, rfl, rfl⟩

/-- C9 (implicit): a default-constructed handle references the NaN singleton
(`SX::SX()` takes `casadi_limits<SX>::nan.node`), and `isNan` holds on it on
every well-formed heap. -/
theorem c9_default_handle_is_nan :
    sxDefault = nanId ∧ isNanK (initHeap.get sxDefault) = true ∧
    ∀ s : Heap, heapOK s → isNanK (s.get sxDefault) = true := by
  refine ⟨rfl, by decide, ?_⟩
  intro s hs
  rw [show sxDefault = 4 from rfl, (heapOK_singletons hs).2.2.2.2.1]
  rfl

theorem c9_witness : isNanK (Heap.get initHeap sxDefault) = true :=
  c9_default_handle_is_nan.2.2 initHeap (by decide)

/-- C3: `SX::div` tests `y->isZero()` first, so dividing any handle by the
zero node returns the NaN singleton with no allocation, before any other
simplification can fire — in particular `0/0` is NaN, not 0. -/
theorem c3_div_by_zero_is_nan :
    (∀ (s : Heap) (x y : NodeId), isZeroK (s.get y) = true →
      divW s x y = (s, nanId)) ∧
    (∀ s : Heap, heapOK s → divW s zeroId zeroId = (s, nanId)) := by
  have main : ∀ (s : Heap) (x y : NodeId), isZeroK (s.get y) = true →
      divW s x y = (s, nanId) := by
    intro s x y h
    unfold divW
    rw [show 2 * (x + y) + 4 = (2 * (x + y) + 3) + 1 from rfl]
    simp [muldivF, h]
  exact ⟨main, fun s hs => main s zeroId zeroId (by
    rw [show zeroId = 0 from rfl, (heapOK_singletons hs).1]; rfl)⟩

theorem c3_witness : divW initHeap oneId zeroId = (initHeap, nanId) :=
  c3_div_by_zero_is_nan.1 initHeap oneId zeroId (by decide)

/-- C4: the constant-equality comparison of `SX::isEquivalent` (sx.cpp line
255) is a statement with no effect; two constant handles on distinct nodes are
never equivalent at any depth, even when their numeric values coincide —
constants have no operands, so only the identity test can succeed. -/
theorem c4_equal_constants_not_equivalent :
    ∀ (s : Heap) (x y : NodeId) (depth : Nat),
      isConstantK (s.get x) = true → isConstantK (s.get y) = true → x ≠ y →
      isEquivalent s x y depth = false := by
  intro s x y depth hx _hy hxy
  cases depth with
  | zero => simp [isEquivalent, hxy]
  | succ d => simp [isEquivalent, hxy, isConstantK_hasDepK hx]

theorem c4_witness :
    isConstantK (Heap.get (initHeap ++ [.kInt 5, .kInt 5]) 7) = true ∧
    isConstantK (Heap.get (initHeap ++ [.kInt 5, .kInt 5]) 8) = true ∧
    getValueK (Heap.get (initHeap ++ [.kInt 5, .kInt 5]) 7)
      = getValueK (Heap.get (initHeap ++ [.kInt 5, .kInt 5]) 8) ∧
    isEquivalent (initHeap ++ [.kInt 5, .kInt 5]) 7 8 5 = false :=
  ⟨by decide, by decide, by decide,
    c4_equal_constants_not_equivalent (initHeap ++ [.kInt 5, .kInt 5]) 7 8 5
      (by decide) (by decide) (by decide)⟩

/-- C7: `operator==` returns the one singleton on identical nodes, the zero
singleton when both operands are constants (in particular unequal ones), and
otherwise allocates an EQUALITY node on the pair. -/
theorem c7_equality_operator :
    ∀ (s : Heap) (x y : NodeId),
      (x = y → eqW s x y = (s, oneId)) ∧
      (x ≠ y → isConstantK (s.get x) = true → isConstantK (s.get y) = true →
        dEq (getValueK (s.get x)) (getValueK (s.get y)) = false →
        eqW s x y = (s, zeroId)) ∧
      (x ≠ y → (isConstantK (s.get x) && isConstantK (s.get y)) = false →
        eqW s x y = (s ++ [.kBinary .EQUALITY x y], s.length)) := by
  intro s x y
  refine ⟨?_, ?_, ?_⟩
  · intro h; subst h; simp [eqW]
  · intro hne hx hy _
    simp [eqW, hne, hx, hy]
  · intro hne hc
    simp [eqW, hne, hc, createBinary]

theorem c7_witness :
    eqW (initHeap ++ [.kInt 3]) 7 twoId = (initHeap ++ [.kInt 3], zeroId) :=
  (c7_equality_operator (initHeap ++ [.kInt 3]) 7 twoId).2.1
    (by decide) (by decide) (by decide) (by decide)

theorem mulW_symbol {s : Heap} {x : NodeId} {nm : String}
    (hx : s.get x = .kSym nm) :
    mulW s x x = (s ++ [.kBinary .MUL x x], s.length) := by
  unfold mulW
  rw [show 2 * (x + x) + 4 = (2 * (x + x) + 3) + 1 from rfl]
  simp [muldivF, hx, isConstantK, isZeroK, isOneK, isMinusOneK, hasDepK,
    createBinary]

/-- C6: `a>=b` first forms `x = a-b`; a perfect square or an absolute value
reduces to the one singleton, a constant difference evaluates numerically to
the one or zero singleton, anything else allocates a STEP node on `x`;
`a<=b` is `b>=a`.  Concretely, `(x*x) >= 0` is the one singleton for any
symbol `x`, `3.0 >= 2.0` is the one singleton and `2.0 >= 3.0` the zero
singleton. -/
theorem c6_ge_reduction :
    (∀ (s : Heap) (a b : NodeId),
      ((isSquaredH (subW s a b).1 (subW s a b).2
          || isOpH (subW s a b).1 .FABS (subW s a b).2) = true →
        geW s a b = ((subW s a b).1, oneId)) ∧
      ((isSquaredH (subW s a b).1 (subW s a b).2
          || isOpH (subW s a b).1 .FABS (subW s a b).2) = false →
        isConstantK ((subW s a b).1.get (subW s a b).2) = true →
        geW s a b = ((subW s a b).1,
          if dGe (getValueK ((subW s a b).1.get (subW s a b).2)) (.fin 0)
          then oneId else zeroId)) ∧
      ((isSquaredH (subW s a b).1 (subW s a b).2
          || isOpH (subW s a b).1 .FABS (subW s a b).2) = false →
        isConstantK ((subW s a b).1.get (subW s a b).2) = false →
        geW s a b = createUnary (subW s a b).1 .STEP (subW s a b).2) ∧
      leW s a b = geW s b a) ∧
    (∀ (s : Heap) (x : NodeId) (nm : String), heapOK s →
      s.get x = .kSym nm →
      geW (mulW s x x).1 (mulW s x x).2 zeroId = ((mulW s x x).1, oneId)) ∧
    (geW (initHeap ++ [.kInt 3]) 7 twoId = (initHeap ++ [.kInt 3], oneId)) ∧
    (geW (initHeap ++ [.kInt 3]) twoId 7 = (initHeap ++ [.kInt 3], zeroId)) := by
  refine ⟨?_, ?_, by with_unfolding_all decide, by with_unfolding_all decide⟩
  · intro s a b
    refine ⟨?_, ?_, ?_, rfl⟩
    · intro h; simp only [geW, h]; rfl
    · intro h hc; simp only [geW, h, hc]; simp
    · intro h hc; simp only [geW, h, hc]; simp
  · intro s x nm hOK hx
    rw [mulW_symbol hx]
    have h7 := heapOK_len hOK
    have hz : (s ++ [SXKind.kBinary Op.MUL x x]).get 0 = SXKind.kZero := by
      rw [get_append_left _ (show 0 < s.length by omega)]
      exact (heapOK_singletons hOK).1
    have hL : (s ++ [SXKind.kBinary Op.MUL x x]).get s.length
        = SXKind.kBinary Op.MUL x x := get_concat s _
    have hsub : subW (s ++ [SXKind.kBinary Op.MUL x x]) s.length zeroId
        = (s ++ [SXKind.kBinary Op.MUL x x], s.length) := by
      unfold subW
      rw [show zeroId = 0 from rfl,
        show s.length + 0 + 2 = (s.length + 0 + 1) + 1 from rfl]
      simp [addsubF, hz, isZeroK]
    have hsq : isSquaredH (s ++ [SXKind.kBinary Op.MUL x x]) s.length = true := by
      simp [isSquaredH, hL, hasDepK, getOpK, dep0K, dep1K, defaultEqDepth,
        isEquivalent]
    simp only [geW, hsub, hsq]
    simp

theorem c6_witness :
    geW (mulW (initHeap ++ [SXKind.kSym "x"]) 7 7).1
        (mulW (initHeap ++ [SXKind.kSym "x"]) 7 7).2 zeroId
      = ((mulW (initHeap ++ [SXKind.kSym "x"]) 7 7).1, oneId) :=
  c6_ge_reduction.2.1 (initHeap ++ [SXKind.kSym "x"]) 7 "x"
    (by decide) (by with_unfolding_all decide)

theorem createBinary_nonarith (op : Op) (h : ∀ a b, evalBop op a b = none)
    (s : Heap) (x y : NodeId) :
    createBinary s op x y = (s ++ [.kBinary op x y], s.length) := by
  unfold createBinary
  rw [h]
  split <;> rfl

theorem countConstpow_append (s u : Heap) :
    countConstpow (s ++ u) = countConstpow s + countConstpow u := by
  simp [countConstpow, List.countP_append]

theorem fromDouble_countConstpow (s : Heap) (v : DV) :
    countConstpow (fromDouble s v).1 = countConstpow s := by
  unfold fromDouble intCreate realCreate
  rcases v with q | _ | _ | _ <;> dsimp only <;> repeat' split
  all_goals simp [countConstpow, List.countP_append]

theorem mulW_sym_oneR {s : Heap} {x : NodeId} {nm : String}
    (hx : s.get x = .kSym nm) (hone : s.get oneId = .kOne) :
    mulW s x oneId = (s, x) := by
  unfold mulW
  rw [show oneId = 1 from rfl] at hone ⊢
  rw [show 2 * (x + 1) + 4 = ((2 * (x + 1) + 2) + 1) + 1 from rfl]
  simp [muldivF, hx, hone, isConstantK, isZeroK, isOneK]

theorem mulW_mulnode_self {s : Heap} {m a b : NodeId}
    (hm : s.get m = .kBinary .MUL a b) :
    mulW s m m = (s ++ [.kBinary .MUL m m], s.length) := by
  unfold mulW
  rw [show 2 * (m + m) + 4 = (2 * (m + m) + 3) + 1 from rfl]
  simp [muldivF, hm, isConstantK, isZeroK, isOneK, isMinusOneK, hasDepK,
    getOpK, createBinary]

/-- C5: `SX::__pow__` with a constant exponent: integer 0 gives the one
singleton; an integer of magnitude above 100 allocates a single CONSTPOW node;
a negative integer n gives `1/pow(x,-n)`; an odd positive n gives
`x * pow(x,n-1)`; an even positive n squares `pow(x,n/2)`, so `pow(x,4)` for a
symbol x allocates exactly 2 multiplication nodes (not 3); a non-integer
constant exponent equal to 0.5 gives `sqrt(x)`; any other constant exponent
allocates a CONSTPOW node; a non-constant exponent allocates a POW node. -/
theorem c5_pow_construction :
    (∀ (s : Heap) (x : NodeId), powIter s x 0 = (s, oneId)) ∧
    (∀ (s : Heap) (x : NodeId) (nn : ℤ), 100 < nn ∨ nn < -100 →
      powIter s x nn =
        ((fromDouble s (.fin (nn : ℚ))).1 ++
          [.kBinary .CONSTPOW x (fromDouble s (.fin (nn : ℚ))).2],
          (fromDouble s (.fin (nn : ℚ))).1.length) ∧
      countConstpow (powIter s x nn).1 = countConstpow s + 1) ∧
    (∀ (s : Heap) (x : NodeId) (nn : ℤ), nn < 0 → -100 ≤ nn →
      powIter s x nn =
        divW (powIter (fromDouble s (.fin ((-nn : ℤ) : ℚ))).1 x (-nn)).1 oneId
          (powIter (fromDouble s (.fin ((-nn : ℤ) : ℚ))).1 x (-nn)).2) ∧
    (∀ (s : Heap) (x : NodeId) (nn : ℤ), 0 < nn → nn ≤ 100 → nn % 2 = 1 →
      powIter s x nn =
        mulW (powIter (fromDouble s (.fin ((nn - 1 : ℤ) : ℚ))).1 x (nn - 1)).1 x
          (powIter (fromDouble s (.fin ((nn - 1 : ℤ) : ℚ))).1 x (nn - 1)).2) ∧
    (∀ (s : Heap) (x : NodeId) (nn : ℤ), 0 < nn → nn ≤ 100 → nn % 2 = 0 →
      powIter s x nn =
        mulW (powIter (fromDouble s (.fin ((nn / 2 : ℤ) : ℚ))).1 x (nn / 2)).1
          (powIter (fromDouble s (.fin ((nn / 2 : ℤ) : ℚ))).1 x (nn / 2)).2
          (powIter (fromDouble s (.fin ((nn / 2 : ℤ) : ℚ))).1 x (nn / 2)).2) ∧
    (∀ (s : Heap) (x : NodeId) (nm : String), heapOK s → s.get x = .kSym nm →
      powIter s x 4 =
        (s ++ [.kBinary .MUL x x, .kBinary .MUL s.length s.length],
          s.length + 1) ∧
      countMul (powIter s x 4).1 = countMul s + 2) ∧
    (∀ (s : Heap) (x n : NodeId), isConstantK (s.get n) = true →
      isIntegerK (s.get n) = false →
      dEq (getValueK (s.get n)) (.fin (1/2)) = true →
      powOp s x n = sqrtH s x) ∧
    (∀ (s : Heap) (x n : NodeId), isConstantK (s.get n) = true →
      isIntegerK (s.get n) = false →
      dEq (getValueK (s.get n)) (.fin (1/2)) = false →
      powOp s x n = (s ++ [.kBinary .CONSTPOW x n], s.length)) ∧
    (∀ (s : Heap) (x n : NodeId), isConstantK (s.get n) = false →
      powOp s x n = (s ++ [.kBinary .POW x n], s.length)) := by
  have hp0 : ∀ (s : Heap) (x : NodeId), powIter s x 0 = (s, oneId) := by
    intro s x
    unfold powIter
    simp
  have hpbig : ∀ (s : Heap) (x : NodeId) (nn : ℤ), 100 < nn ∨ nn < -100 →
      powIter s x nn =
        ((fromDouble s (.fin (nn : ℚ))).1 ++
          [.kBinary .CONSTPOW x (fromDouble s (.fin (nn : ℚ))).2],
          (fromDouble s (.fin (nn : ℚ))).1.length) := by
    intro s x nn h
    unfold powIter
    rw [if_neg (by omega), if_pos h,
      createBinary_nonarith Op.CONSTPOW (fun a b => rfl)]
  have hpodd : ∀ (s : Heap) (x : NodeId) (nn : ℤ), 0 < nn → nn ≤ 100 →
      nn % 2 = 1 →
      powIter s x nn =
        mulW (powIter (fromDouble s (.fin ((nn - 1 : ℤ) : ℚ))).1 x (nn - 1)).1 x
          (powIter (fromDouble s (.fin ((nn - 1 : ℤ) : ℚ))).1 x (nn - 1)).2 := by
    intro s x nn h1 h2 h3
    conv_lhs => unfold powIter
    rw [if_neg (by omega), if_neg (by omega), if_neg (by omega), if_pos h3]
  have hpeven : ∀ (s : Heap) (x : NodeId) (nn : ℤ), 0 < nn → nn ≤ 100 →
      nn % 2 = 0 →
      powIter s x nn =
        mulW (powIter (fromDouble s (.fin ((nn / 2 : ℤ) : ℚ))).1 x (nn / 2)).1
          (powIter (fromDouble s (.fin ((nn / 2 : ℤ) : ℚ))).1 x (nn / 2)).2
          (powIter (fromDouble s (.fin ((nn / 2 : ℤ) : ℚ))).1 x (nn / 2)).2 := by
    intro s x nn h1 h2 h3
    conv_lhs => unfold powIter
    rw [if_neg (by omega), if_neg (by omega), if_neg (by omega),
      if_neg (by omega)]
  have hpow4 : ∀ (s : Heap) (x : NodeId) (nm : String), heapOK s →
      s.get x = .kSym nm →
      powIter s x 4 =
        (s ++ [.kBinary .MUL x x, .kBinary .MUL s.length s.length],
          s.length + 1) := by
    intro s x nm hOK hx
    have hone := (heapOK_singletons hOK).2.1
    have hfd2 : fromDouble s (.fin (2 : ℚ)) = (s, twoId) := by
      with_unfolding_all rfl
    have hfd1 : fromDouble s (.fin (1 : ℚ)) = (s, oneId) := by
      with_unfolding_all rfl
    have hfd0 : fromDouble s (.fin (0 : ℚ)) = (s, zeroId) := by
      with_unfolding_all rfl
    have e1 : powIter s x 1 = (s, x) := by
      rw [hpodd s x 1 (by omega) (by omega) (by omega)]
      norm_num [hfd0, hp0]
      exact mulW_sym_oneR hx hone
    have e2 : powIter s x 2 = (s ++ [.kBinary .MUL x x], s.length) := by
      rw [hpeven s x 2 (by omega) (by omega) (by omega)]
      norm_num [hfd1, e1]
      exact mulW_symbol hx
    have e4 : powIter s x 4 =
        mulW (s ++ [.kBinary .MUL x x]) s.length s.length := by
      rw [hpeven s x 4 (by omega) (by omega) (by omega)]
      norm_num [hfd2, e2]
    rw [e4, mulW_mulnode_self (get_concat s _)]
    simp
  refine ⟨hp0, ?_, ?_, hpodd, hpeven, ?_, ?_, ?_, ?_⟩
  · intro s x nn h
    refine ⟨hpbig s x nn h, ?_⟩
    rw [hpbig s x nn h]
    dsimp only
    rw [countConstpow_append, fromDouble_countConstpow]
    rfl
  · intro s x nn h1 h2
    conv_lhs => unfold powIter
    rw [if_neg (by omega), if_neg (by omega), if_pos h1]
  · intro s x nm hOK hx
    refine ⟨hpow4 s x nm hOK hx, ?_⟩
    rw [hpow4 s x nm hOK hx]
    simp [countMul, List.countP_append]
  · intro s x n hc hi hv
    unfold powOp
    rw [if_pos hc, if_neg (by simp [hi]), if_pos hv]
  · intro s x n hc hi hv
    unfold powOp
    rw [if_pos hc, if_neg (by simp [hi]), if_neg (by rw [hv]; simp),
      createBinary_nonarith Op.CONSTPOW (fun a b => rfl)]
  · intro s x n hc
    unfold powOp
    rw [if_neg (by simp [hc]),
      createBinary_nonarith Op.POW (fun a b => rfl)]

theorem c5_witness :
    powIter (initHeap ++ [SXKind.kSym "x"]) 7 4 =
      ((initHeap ++ [SXKind.kSym "x"]) ++
        [.kBinary .MUL 7 7,
         .kBinary .MUL (initHeap ++ [SXKind.kSym "x"]).length
           (initHeap ++ [SXKind.kSym "x"]).length],
        (initHeap ++ [SXKind.kSym "x"]).length + 1) :=
  (c5_pow_construction.2.2.2.2.2.1 (initHeap ++ [SXKind.kSym "x"]) 7 "x"
    (by decide) (by rfl)).1

theorem treeSizeF_pos (s : Heap) (fuel : Nat) (x : NodeId) :
    1 ≤ treeSizeF s fuel x := by
  cases fuel with
  | zero => simp [treeSizeF]
  | succ n =>
    cases hk : s.get x
    all_goals simp only [treeSizeF, hk]
    all_goals omega

theorem treeSizeF_congr {s : Heap} (hOK : heapOK s) :
    ∀ x : NodeId, x < s.length → ∀ f g : Nat, x < f → x < g →
      treeSizeF s f x = treeSizeF s g x := by
  intro x
  induction x using Nat.strong_induction_on with
  | _ x IH =>
    intro hx f g hf hg
    cases f with
    | zero => exact absurd hf (Nat.not_lt_zero x)
    | succ fm =>
      cases g with
      | zero => exact absurd hg (Nat.not_lt_zero x)
      | succ gm =>
        have hxf : x ≤ fm := Nat.lt_succ_iff.mp hf
        have hxg : x ≤ gm := Nat.lt_succ_iff.mp hg
        have hdeps : ∀ d ∈ depsOf (s.get x), d < x :=
          (hOK.2 x (List.mem_range.mpr hx)).1
        cases hk : s.get x with
        | kUnary op d =>
          have hd : d < x := hdeps d (by rw [hk]; simp [depsOf])
          simp only [treeSizeF, hk]
          rw [IH d hd (Nat.lt_trans hd hx) fm gm
            (Nat.lt_of_lt_of_le hd hxf) (Nat.lt_of_lt_of_le hd hxg)]
        | kBinary op d0 d1 =>
          have hd0 : d0 < x := hdeps d0 (by rw [hk]; simp [depsOf])
          have hd1 : d1 < x := hdeps d1 (by rw [hk]; simp [depsOf])
          simp only [treeSizeF, hk]
          rw [IH d0 hd0 (Nat.lt_trans hd0 hx) fm gm
              (Nat.lt_of_lt_of_le hd0 hxf) (Nat.lt_of_lt_of_le hd0 hxg),
            IH d1 hd1 (Nat.lt_trans hd1 hx) fm gm
              (Nat.lt_of_lt_of_le hd1 hxf) (Nat.lt_of_lt_of_le hd1 hxg)]
        | kZero => simp only [treeSizeF, hk]
        | kOne => simp only [treeSizeF, hk]
        | kMinusOne => simp only [treeSizeF, hk]
        | kNan => simp only [treeSizeF, hk]
        | kInf => simp only [treeSizeF, hk]
        | kMinusInf => simp only [treeSizeF, hk]
        | kInt v => simp only [treeSizeF, hk]
        | kReal q => simp only [treeSizeF, hk]
        | kSym nm => simp only [treeSizeF, hk]

theorem treeSizeF_eq {s : Heap} (hOK : heapOK s) :
    ∀ fuel, ∀ x : NodeId, x < s.length → x < fuel →
      treeSizeF s fuel x = treeSize s x := by
  intro fuel x hx hxf
  exact treeSizeF_congr hOK x hx fuel (x + 1) hxf (Nat.lt_succ_self x)

theorem printF_step_unary {s : Heap} {n : Nat} {rem : ℤ} {x : NodeId}
    {op : Op} {d : NodeId} (h : 0 < rem) (hk : s.get x = .kUnary op d) :
    printF s (n + 1) rem x =
      (.opTok op :: .lp :: ((printF s n (rem - 1) d).1 ++ [.rp]),
        (printF s n (rem - 1) d).2) := by
  simp [printF, if_pos h, hk]

theorem printF_step_binary {s : Heap} {n : Nat} {rem : ℤ} {x : NodeId}
    {op : Op} {d0 d1 : NodeId} (h : 0 < rem)
    (hk : s.get x = .kBinary op d0 d1) :
    printF s (n + 1) rem x =
      (.lp :: ((printF s n (rem - 1) d0).1 ++ .opTok op ::
          ((printF s n (printF s n (rem - 1) d0).2 d1).1 ++ [.rp])),
        (printF s n (printF s n (rem - 1) d0).2 d1).2) := by
  simp [printF, if_pos h, hk]

theorem printF_le (s : Heap) :
    ∀ fuel (rem : ℤ) (x : NodeId), (printF s fuel rem x).2 ≤ rem := by
  intro fuel
  induction fuel with
  | zero => intro rem x; simp [printF]
  | succ n IH =>
    intro rem x
    by_cases h : 0 < rem
    · cases hk : s.get x with
      | kUnary op d =>
        rw [printF_step_unary h hk]
        have := IH (rem - 1) d
        dsimp only
        omega
      | kBinary op d0 d1 =>
        rw [printF_step_binary h hk]
        have h0 := IH (rem - 1) d0
        have h1 := IH (printF s n (rem - 1) d0).2 d1
        dsimp only
        omega
      | kZero => simp [printF, if_pos h, hk]
      | kOne => simp [printF, if_pos h, hk]
      | kMinusOne => simp [printF, if_pos h, hk]
      | kNan => simp [printF, if_pos h, hk]
      | kInf => simp [printF, if_pos h, hk]
      | kMinusInf => simp [printF, if_pos h, hk]
      | kInt v => simp [printF, if_pos h, hk]
      | kReal q => simp [printF, if_pos h, hk]
      | kSym nm => simp [printF, if_pos h, hk]
    · simp only [printF, if_neg h]
      omega

theorem printF_nonneg (s : Heap) :
    ∀ fuel (rem : ℤ) (x : NodeId), 0 ≤ rem → 0 ≤ (printF s fuel rem x).2 := by
  intro fuel
  induction fuel with
  | zero => intro rem x h; simpa [printF] using h
  | succ n IH =>
    intro rem x h
    by_cases h0 : 0 < rem
    · cases hk : s.get x with
      | kUnary op d =>
        rw [printF_step_unary h0 hk]
        have := IH (rem - 1) d (by omega)
        dsimp only
        omega
      | kBinary op d0 d1 =>
        rw [printF_step_binary h0 hk]
        have hn0 := IH (rem - 1) d0 (by omega)
        have hn1 := IH (printF s n (rem - 1) d0).2 d1 hn0
        dsimp only
        omega
      | kZero => simp [printF, if_pos h0, hk]; omega
      | kOne => simp [printF, if_pos h0, hk]; omega
      | kMinusOne => simp [printF, if_pos h0, hk]; omega
      | kNan => simp [printF, if_pos h0, hk]; omega
      | kInf => simp [printF, if_pos h0, hk]; omega
      | kMinusInf => simp [printF, if_pos h0, hk]; omega
      | kInt v => simp [printF, if_pos h0, hk]; omega
      | kReal q => simp [printF, if_pos h0, hk]; omega
      | kSym nm => simp [printF, if_pos h0, hk]; omega
    · simp only [printF, if_neg h0]
      omega

theorem printF_exhausted (s : Heap) (fuel : Nat) (rem : ℤ) (x : NodeId)
    (h : rem ≤ 0) : printF s fuel rem x = ([.ellipsis], rem) := by
  cases fuel with
  | zero => rfl
  | succ n =>
    simp only [printF]
    rw [if_neg (by omega)]

theorem printF_complete {s : Heap} (hOK : heapOK s) :
    ∀ (fuel : Nat) (x : NodeId) (rem : ℤ), x < s.length →
      (treeSize s x : ℤ) ≤ rem → rem ≤ (fuel : ℤ) →
      Tok.ellipsis ∉ (printF s fuel rem x).1 ∧
      (printF s fuel rem x).2 = rem - treeSize s x := by
  intro fuel
  induction fuel with
  | zero =>
    intro x rem hx hts hf
    have := treeSizeF_pos s (x + 1) x
    unfold treeSize at hts
    omega
  | succ n IH =>
    intro x rem hx hts hf
    have hpos : 1 ≤ treeSize s x := treeSizeF_pos s (x + 1) x
    have h0 : (0 : ℤ) < rem := by omega
    have hdeps : ∀ d ∈ depsOf (s.get x), d < x :=
      (hOK.2 x (List.mem_range.mpr hx)).1
    cases hk : s.get x with
    | kUnary op d =>
      have hd : d < x := hdeps d (by rw [hk]; simp [depsOf])
      have hd_len : d < s.length := Nat.lt_trans hd hx
      have hts_x : treeSize s x = 1 + treeSize s d := by
        have e1 : treeSizeF s (x + 1) x = 1 + treeSizeF s x d := by
          simp only [treeSizeF, hk]
        unfold treeSize
        rw [e1, treeSizeF_eq hOK x d hd_len hd]
        rfl
      have hd_ts : (treeSize s d : ℤ) ≤ rem - 1 := by omega
      have hd_f : rem - 1 ≤ (n : ℤ) := by omega
      have hIH := IH d (rem - 1) hd_len hd_ts hd_f
      rw [printF_step_unary h0 hk]
      dsimp only
      constructor
      · simp [hIH.1]
      · rw [hIH.2]; omega
    | kBinary op d0 d1 =>
      have hd0 : d0 < x := hdeps d0 (by rw [hk]; simp [depsOf])
      have hd1 : d1 < x := hdeps d1 (by rw [hk]; simp [depsOf])
      have hd0_len : d0 < s.length := Nat.lt_trans hd0 hx
      have hd1_len : d1 < s.length := Nat.lt_trans hd1 hx
      have hts_x : treeSize s x = 1 + treeSize s d0 + treeSize s d1 := by
        have e1 : treeSizeF s (x + 1) x
            = 1 + treeSizeF s x d0 + treeSizeF s x d1 := by
          simp only [treeSizeF, hk]
        unfold treeSize
        rw [e1, treeSizeF_eq hOK x d0 hd0_len hd0,
          treeSizeF_eq hOK x d1 hd1_len hd1]
        rfl
      have hp1 : 1 ≤ treeSize s d1 := treeSizeF_pos s (d1 + 1) d1
      have hd0_ts : (treeSize s d0 : ℤ) ≤ rem - 1 := by omega
      have hd0_f : rem - 1 ≤ (n : ℤ) := by omega
      have hIH0 := IH d0 (rem - 1) hd0_len hd0_ts hd0_f
      have hd1_ts : (treeSize s d1 : ℤ) ≤ (printF s n (rem - 1) d0).2 := by
        rw [hIH0.2]; omega
      have hd1_f : (printF s n (rem - 1) d0).2 ≤ (n : ℤ) := by
        have := printF_le s n (rem - 1) d0; omega
      have hIH1 := IH d1 (printF s n (rem - 1) d0).2 hd1_len hd1_ts hd1_f
      rw [printF_step_binary h0 hk]
      dsimp only
      constructor
      · simp [hIH0.1, hIH1.1]
      · rw [hIH1.2, hIH0.2]; omega
    | kZero =>
      simp [printF, if_pos h0, hk]
      unfold treeSize
      simp [treeSizeF, hk]
    | kOne =>
      simp [printF, if_pos h0, hk]
      unfold treeSize
      simp [treeSizeF, hk]
    | kMinusOne =>
      simp [printF, if_pos h0, hk]
      unfold treeSize
      simp [treeSizeF, hk]
    | kNan =>
      simp [printF, if_pos h0, hk]
      unfold treeSize
      simp [treeSizeF, hk]
    | kInf =>
      simp [printF, if_pos h0, hk]
      unfold treeSize
      simp [treeSizeF, hk]
    | kMinusInf =>
      simp [printF, if_pos h0, hk]
      unfold treeSize
      simp [treeSizeF, hk]
    | kInt v =>
      simp [printF, if_pos h0, hk]
      unfold treeSize
      simp [treeSizeF, hk]
    | kReal q =>
      simp [printF, if_pos h0, hk]
      unfold treeSize
      simp [treeSizeF, hk]
    | kSym nm =>
      simp [printF, if_pos h0, hk]
      unfold treeSize
      simp [treeSizeF, hk]

/-- C8: rendering consumes one budget unit per node visited, so a budget of N
visits at most N nodes (the remaining budget stays in `[0, N]`); an exhausted
budget emits the ellipsis marker instead of recursing; a budget at least the
rendering-tree size emits no ellipsis (and uses exactly `treeSize` units); the
process-wide default budget is 10000 and is settable and gettable. -/
theorem c8_print_truncation :
    (∀ (s : Heap) (x : NodeId) (rem : ℤ), 0 ≤ rem →
      0 ≤ (printSX s x rem).2 ∧ (printSX s x rem).2 ≤ rem) ∧
    (∀ (s : Heap) (x : NodeId) (rem : ℤ), rem ≤ 0 →
      printSX s x rem = ([.ellipsis], rem)) ∧
    (∀ (s : Heap) (x : NodeId) (rem : ℤ), heapOK s → x < s.length →
      (treeSize s x : ℤ) ≤ rem →
      Tok.ellipsis ∉ (printSX s x rem).1 ∧
      (printSX s x rem).2 = rem - treeSize s x) ∧
    maxNumCallsInPrintDefault = 10000 ∧
    (∀ cur n : ℤ, getMaxNumCallsInPrint (setMaxNumCallsInPrint cur n) = n) := by
  refine ⟨?_, ?_, ?_, rfl, fun _ _ => rfl⟩
  · intro s x rem h
    exact ⟨printF_nonneg s rem.toNat rem x h, printF_le s rem.toNat rem x⟩
  · intro s x rem h
    exact printF_exhausted s rem.toNat rem x h
  · intro s x rem hOK hx hts
    have h1 : 1 ≤ treeSize s x := treeSizeF_pos s (x + 1) x
    exact printF_complete hOK rem.toNat x rem hx hts (by omega)

theorem c8_witness :
    Tok.ellipsis ∉
      (printSX (initHeap ++ [.kSym "x", .kBinary .MUL 7 7]) 8 10).1 ∧
    (printSX (initHeap ++ [.kSym "x", .kBinary .MUL 7 7]) 8 10).2 =
      10 - treeSize (initHeap ++ [.kSym "x", .kBinary .MUL 7 7]) 8 :=
  c8_print_truncation.2.2.1 (initHeap ++ [.kSym "x", .kBinary .MUL 7 7]) 8 10
    (by decide) (by decide) (by decide)

theorem hfind_mem {l : List (Nat × Nat)} {h n : Nat}
    (hf : hfind l h = some n) : (h, n) ∈ l := by
  unfold hfind at hf
  cases hfd : l.find? (fun p => p.1 == h) with
  | none => rw [hfd] at hf; simp at hf
  | some a =>
    rw [hfd] at hf
    simp at hf
    have ha : a.1 = h := by simpa using List.find?_some hfd
    have hm : a ∈ l := List.mem_of_find?_eq_some hfd
    have : a = (h, n) := by
      cases a with
      | mk u v => simp only [Prod.mk.injEq]; exact ⟨ha, hf⟩
    rwa [this] at hm

theorem hfind_none_iff {l : List (Nat × Nat)} {h : Nat} :
    hfind l h = none ↔ ∀ p ∈ l, p.1 ≠ h := by
  simp [hfind, List.find?_eq_none]

theorem refCount_cons (a : Nat × Nat) (l : List (Nat × Nat)) (n : Nat) :
    refCount (a :: l) n = (if a.2 = n then 1 else 0) + refCount l n := by
  by_cases ha : a.2 = n <;>
    simp [refCount, List.countP_cons, ha] <;> omega

theorem refCount_zero {l : List (Nat × Nat)} {n : Nat}
    (h : ∀ p ∈ l, p.2 ≠ n) : refCount l n = 0 := by
  unfold refCount
  rw [List.countP_eq_zero]
  intro p hp
  simpa using h p hp

theorem refCount_pos {l : List (Nat × Nat)} {h n : Nat}
    (hm : (h, n) ∈ l) : 1 ≤ refCount l n := by
  unfold refCount
  rw [Nat.one_le_iff_ne_zero]
  intro h0
  rw [List.countP_eq_zero] at h0
  exact absurd (by simp : ((h, n).2 == n) = true) (h0 _ hm)

theorem refCount_two {l : List (Nat × Nat)} {h1 h2 n : Nat}
    (hm1 : (h1, n) ∈ l) (hm2 : (h2, n) ∈ l) (hne : h1 ≠ h2) :
    2 ≤ refCount l n := by
  induction l with
  | nil => simp at hm1
  | cons a t IH =>
    rw [refCount_cons]
    rcases List.mem_cons.mp hm1 with h1a | h1t
    · have h2t : (h2, n) ∈ t := by
        rcases List.mem_cons.mp hm2 with h2a | h2t
        · exact absurd (h2a.trans h1a.symm) (by simp [hne.symm])
        · exact h2t
      have ha2 : a.2 = n := by rw [← h1a]
      have := refCount_pos h2t
      rw [if_pos ha2]
      omega
    · rcases List.mem_cons.mp hm2 with h2a | h2t
      · have ha2 : a.2 = n := by rw [← h2a]
        have := refCount_pos h1t
        rw [if_pos ha2]
        omega
      · have := IH h1t h2t
        omega

theorem bump_keys (l : List (Nat × Nat)) (n : Nat) :
    (bump l n).map Prod.fst = l.map Prod.fst := by
  induction l with
  | nil => rfl
  | cons a t IH => by_cases ha : a.1 = n <;> simp [bump, ha, IH]

theorem setNode_keys (l : List (Nat × Nat)) (h n : Nat) :
    (setNode l h n).map Prod.fst = l.map Prod.fst := by
  induction l with
  | nil => rfl
  | cons a t IH => by_cases ha : a.1 = h <;> simp [setNode, ha, IH]

theorem decDel_keys_sublist (l : List (Nat × Nat)) (n : Nat) :
    ((decDel l n).map Prod.fst).Sublist (l.map Prod.fst) := by
  induction l with
  | nil => simp [decDel]
  | cons a t IH =>
    by_cases ha : a.1 = n
    · by_cases hc : a.2 ≤ 1
      · simp only [decDel, if_pos ha, if_pos hc, List.map_cons]
        exact List.sublist_cons_self _ _
      · simp only [decDel, if_pos ha, if_neg hc, List.map_cons]
        exact List.Sublist.refl _
    · simp only [decDel, if_neg ha, List.map_cons]
      exact IH.cons₂ _

theorem eraseKey_keys_sublist (l : List (Nat × Nat)) (h : Nat) :
    ((eraseKey l h).map Prod.fst).Sublist (l.map Prod.fst) := by
  induction l with
  | nil => simp [eraseKey]
  | cons a t IH =>
    by_cases ha : a.1 = h
    · simp only [eraseKey, if_pos ha, List.map_cons]
      exact List.sublist_cons_self _ _
    · simp only [eraseKey, if_neg ha, List.map_cons]
      exact IH.cons₂ _

theorem mem_keys_decDel {l : List (Nat × Nat)} {k n : Nat}
    (hk : k ∈ l.map Prod.fst) (hne : k ≠ n) :
    k ∈ (decDel l n).map Prod.fst := by
  induction l with
  | nil => simp at hk
  | cons a t IH =>
    by_cases ha : a.1 = n
    · have hkt : k ∈ t.map Prod.fst := by
        rcases List.mem_cons.mp hk with hh | ht
        · exact absurd (hh.trans ha) hne
        · exact ht
      by_cases hc : a.2 ≤ 1
      · simpa [decDel, ha, hc] using hkt
      · simp [decDel, ha, hc, hkt]
    · rcases List.mem_cons.mp hk with hh | ht
      · simp [decDel, ha, hh]
      · simp [decDel, ha, IH ht]

theorem mem_keys_decDel_kept {l : List (Nat × Nat)} {n c : Nat}
    (hnd : (l.map Prod.fst).Nodup) (hm : (n, c) ∈ l) (hc : 1 < c) :
    n ∈ (decDel l n).map Prod.fst := by
  induction l with
  | nil => simp at hm
  | cons a t IH =>
    rw [List.map_cons, List.nodup_cons] at hnd
    by_cases ha : a.1 = n
    · have haeq : a = (n, c) := by
        rcases List.mem_cons.mp hm with hh | ht
        · exact hh.symm
        · exact absurd (ha ▸ List.mem_map_of_mem Prod.fst ht) (ha ▸ hnd.1)
      rw [haeq] at ha ⊢
      simp [decDel, show ¬ (c ≤ 1) by omega]
    · have ht : (n, c) ∈ t := by
        rcases List.mem_cons.mp hm with hh | ht
        · exact absurd (by rw [← hh]) ha
        · exact ht
      simp [decDel, ha, IH hnd.2 ht]

theorem mem_bump {l : List (Nat × Nat)} {n : Nat} {p : Nat × Nat}
    (hnd : (l.map Prod.fst).Nodup) (hp : p ∈ bump l n) :
    (p ∈ l ∧ p.1 ≠ n) ∨ (∃ c, (n, c) ∈ l ∧ p = (n, c + 1)) := by
  induction l with
  | nil => simp [bump] at hp
  | cons a t IH =>
    rw [List.map_cons, List.nodup_cons] at hnd
    by_cases ha : a.1 = n
    · rw [bump, if_pos ha] at hp
      rcases List.mem_cons.mp hp with hh | ht
      · exact Or.inr ⟨a.2, by rw [← ha]; simp [hh], by rw [hh, ha]⟩
      · refine Or.inl ⟨List.mem_cons_of_mem a ht, ?_⟩
        intro hpn
        exact hnd.1 (ha ▸ hpn ▸ List.mem_map_of_mem Prod.fst ht)
    · rw [bump, if_neg ha] at hp
      rcases List.mem_cons.mp hp with hh | ht
      · exact Or.inl ⟨by simp [hh], by rw [hh]; exact ha⟩
      · rcases IH hnd.2 ht with ⟨hm, hne⟩ | ⟨c, hm, he⟩
        · exact Or.inl ⟨List.mem_cons_of_mem a hm, hne⟩
        · exact Or.inr ⟨c, List.mem_cons_of_mem a hm, he⟩

theorem mem_decDel {l : List (Nat × Nat)} {n : Nat} {p : Nat × Nat}
    (hnd : (l.map Prod.fst).Nodup) (hp : p ∈ decDel l n) :
    (p ∈ l ∧ p.1 ≠ n) ∨ (∃ c, (n, c) ∈ l ∧ 1 < c ∧ p = (n, c - 1)) := by
  induction l with
  | nil => simp [decDel] at hp
  | cons a t IH =>
    rw [List.map_cons, List.nodup_cons] at hnd
    have hkey : ∀ q ∈ t, q.1 ≠ a.1 := by
      intro q hq hqa
      exact hnd.1 (hqa ▸ List.mem_map_of_mem Prod.fst hq)
    by_cases ha : a.1 = n
    · rw [decDel, if_pos ha] at hp
      by_cases hc : a.2 ≤ 1
      · rw [if_pos hc] at hp
        exact Or.inl ⟨List.mem_cons_of_mem a hp, fun hpn =>
          hkey p hp (hpn.trans ha.symm)⟩
      · rw [if_neg hc] at hp
        rcases List.mem_cons.mp hp with hh | ht
        · exact Or.inr ⟨a.2, by rw [← ha]; simp, by omega, by rw [hh, ha]⟩
        · exact Or.inl ⟨List.mem_cons_of_mem a ht, fun hpn =>
            hkey p ht (hpn.trans ha.symm)⟩
    · rw [decDel, if_neg ha] at hp
      rcases List.mem_cons.mp hp with hh | ht
      · exact Or.inl ⟨by simp [hh], by rw [hh]; exact ha⟩
      · rcases IH hnd.2 ht with ⟨hm, hne⟩ | ⟨c, hm, hc, he⟩
        · exact Or.inl ⟨List.mem_cons_of_mem a hm, hne⟩
        · exact Or.inr ⟨c, List.mem_cons_of_mem a hm, hc, he⟩

theorem mem_setNode {l : List (Nat × Nat)} {h v : Nat} {p : Nat × Nat}
    (hnd : (l.map Prod.fst).Nodup) (hp : p ∈ setNode l h v) :
    (p ∈ l ∧ p.1 ≠ h) ∨ (∃ c, (h, c) ∈ l ∧ p = (h, v)) := by
  induction l with
  | nil => simp [setNode] at hp
  | cons a t IH =>
    rw [List.map_cons, List.nodup_cons] at hnd
    have hkey : ∀ q ∈ t, q.1 ≠ a.1 := by
      intro q hq hqa
      exact hnd.1 (hqa ▸ List.mem_map_of_mem Prod.fst hq)
    by_cases ha : a.1 = h
    · rw [setNode, if_pos ha] at hp
      rcases List.mem_cons.mp hp with hh | ht
      · exact Or.inr ⟨a.2, by rw [← ha]; simp, by rw [hh, ha]⟩
      · exact Or.inl ⟨List.mem_cons_of_mem a ht, fun hpn =>
          hkey p ht (hpn.trans ha.symm)⟩
    · rw [setNode, if_neg ha] at hp
      rcases List.mem_cons.mp hp with hh | ht
      · exact Or.inl ⟨by simp [hh], by rw [hh]; exact ha⟩
      · rcases IH hnd.2 ht with ⟨hm, hne⟩ | ⟨c, hm, he⟩
        · exact Or.inl ⟨List.mem_cons_of_mem a hm, hne⟩
        · exact Or.inr ⟨c, List.mem_cons_of_mem a hm, he⟩

theorem mem_eraseKey {l : List (Nat × Nat)} {h : Nat} {p : Nat × Nat}
    (hnd : (l.map Prod.fst).Nodup) (hp : p ∈ eraseKey l h) :
    p ∈ l ∧ p.1 ≠ h := by
  induction l with
  | nil => simp [eraseKey] at hp
  | cons a t IH =>
    rw [List.map_cons, List.nodup_cons] at hnd
    have hkey : ∀ q ∈ t, q.1 ≠ a.1 := by
      intro q hq hqa
      exact hnd.1 (hqa ▸ List.mem_map_of_mem Prod.fst hq)
    by_cases ha : a.1 = h
    · rw [eraseKey, if_pos ha] at hp
      exact ⟨List.mem_cons_of_mem a hp, fun hpn => hkey p hp (hpn.trans ha.symm)⟩
    · rw [eraseKey, if_neg ha] at hp
      rcases List.mem_cons.mp hp with hh | ht
      · exact ⟨by simp [hh], by rw [hh]; exact ha⟩
      · exact ⟨List.mem_cons_of_mem a (IH hnd.2 ht).1, (IH hnd.2 ht).2⟩

theorem refCount_setNode {l : List (Nat × Nat)} {h c : Nat}
    (hnd : (l.map Prod.fst).Nodup) (hm : (h, c) ∈ l) (v m : Nat) :
    refCount (setNode l h v) m + (if c = m then 1 else 0)
      = refCount l m + (if v = m then 1 else 0) := by
  induction l with
  | nil => simp at hm
  | cons a t IH =>
    rw [List.map_cons, List.nodup_cons] at hnd
    by_cases ha : a.1 = h
    · have haeq : a = (h, c) := by
        rcases List.mem_cons.mp hm with hh | ht
        · exact hh.symm
        · exact absurd (ha ▸ List.mem_map_of_mem Prod.fst ht) (ha ▸ hnd.1)
      rw [setNode, if_pos ha, refCount_cons, refCount_cons, haeq]
      simp only []
      omega
    · have ht : (h, c) ∈ t := by
        rcases List.mem_cons.mp hm with hh | ht
        · exact absurd (by rw [← hh]) ha
        · exact ht
      rw [setNode, if_neg ha, refCount_cons, refCount_cons]
      have := IH hnd.2 ht
      omega

theorem refCount_eraseKey {l : List (Nat × Nat)} {h c : Nat}
    (hnd : (l.map Prod.fst).Nodup) (hm : (h, c) ∈ l) (m : Nat) :
    refCount (eraseKey l h) m + (if c = m then 1 else 0) = refCount l m := by
  induction l with
  | nil => simp at hm
  | cons a t IH =>
    rw [List.map_cons, List.nodup_cons] at hnd
    by_cases ha : a.1 = h
    · have haeq : a = (h, c) := by
        rcases List.mem_cons.mp hm with hh | ht
        · exact hh.symm
        · exact absurd (ha ▸ List.mem_map_of_mem Prod.fst ht) (ha ▸ hnd.1)
      rw [eraseKey, if_pos ha, refCount_cons, haeq]
      simp only []
      omega
    · have ht : (h, c) ∈ t := by
        rcases List.mem_cons.mp hm with hh | ht
        · exact absurd (by rw [← hh]) ha
        · exact ht
      rw [eraseKey, if_neg ha, refCount_cons, refCount_cons]
      have := IH hnd.2 ht
      omega

theorem mem_keys_entry {l : List (Nat × Nat)} {k : Nat}
    (h : k ∈ l.map Prod.fst) : ∃ c, (k, c) ∈ l := by
  obtain ⟨p, hp, hpk⟩ := List.mem_map.mp h
  exact ⟨p.2, by rw [← hpk]; simpa using hp⟩

theorem rcStep_inv {s : RCState} (hinv : rcInv s) (op : RCOp) :
    rcInv (rcStep s op) := by
  obtain ⟨hndH, hndN, hcnt, href⟩ := hinv
  cases op with
  | newNode h n =>
    cases hf : hfind s.handles h with
    | some m =>
      simp only [rcStep]
      rw [if_pos (by simp [hf])]
      exact ⟨hndH, hndN, hcnt, href⟩
    | none =>
      by_cases hnn : n ∈ s.nodes.map Prod.fst
      · simp only [rcStep]
        rw [if_pos (by simp [hf, hnn])]
        exact ⟨hndH, hndN, hcnt, href⟩
      · have hhk : h ∉ s.handles.map Prod.fst := by
          intro hmem
          obtain ⟨c, hc⟩ := mem_keys_entry hmem
          exact (hfind_none_iff.mp hf _ hc) rfl
        have hstep : rcStep s (.newNode h n)
            = ⟨(h, n) :: s.handles, (n, 1) :: s.nodes⟩ := by
          simp [rcStep, hf, hnn]
        rw [hstep]
        unfold rcInv
        dsimp only
        refine ⟨?_, ?_, ?_, ?_⟩
        · rw [List.map_cons]
          exact List.nodup_cons.mpr ⟨hhk, hndH⟩
        · rw [List.map_cons]
          exact List.nodup_cons.mpr ⟨hnn, hndN⟩
        · intro p hp
          rcases List.mem_cons.mp hp with hh | ht
          · subst hh
            have h0 : refCount s.handles n = 0 :=
              refCount_zero (fun q hq hqn => hnn (hqn ▸ href q hq))
            simp [refCount_cons, h0]
          · have hc : p.2 = refCount s.handles p.1 := (hcnt _ ht).1
            have hpos : 0 < p.2 := (hcnt _ ht).2
            have hne : n ≠ p.1 :=
              fun hnp => hnn (hnp ▸ List.mem_map_of_mem Prod.fst ht)
            refine ⟨?_, hpos⟩
            simp only [refCount_cons]
            simpa [hne] using hc
        · intro q hq
          rcases List.mem_cons.mp hq with hh | ht
          · subst hh; simp
          · rw [List.map_cons]
            exact List.mem_cons_of_mem _ (href q ht)
  | copy h src =>
    cases hfs : hfind s.handles src with
    | none =>
      simp only [rcStep, hfs]
      exact ⟨hndH, hndN, hcnt, href⟩
    | some nsrc =>
      cases hfh : hfind s.handles h with
      | some m =>
        simp only [rcStep, hfs]
        rw [if_pos (by simp [hfh])]
        exact ⟨hndH, hndN, hcnt, href⟩
      | none =>
        have hhk : h ∉ s.handles.map Prod.fst := by
          intro hmem
          obtain ⟨c, hc⟩ := mem_keys_entry hmem
          exact (hfind_none_iff.mp hfh _ hc) rfl
        have hsrcmem : (src, nsrc) ∈ s.handles := hfind_mem hfs
        have hnsrc : nsrc ∈ s.nodes.map Prod.fst := href _ hsrcmem
        have hstep : rcStep s (.copy h src)
            = ⟨(h, nsrc) :: s.handles, bump s.nodes nsrc⟩ := by
          simp [rcStep, hfs, hfh]
        rw [hstep]
        unfold rcInv
        dsimp only
        refine ⟨?_, ?_, ?_, ?_⟩
        · rw [List.map_cons]
          exact List.nodup_cons.mpr ⟨hhk, hndH⟩
        · rw [bump_keys]; exact hndN
        · intro p hp
          rcases mem_bump hndN hp with ⟨hm, hne⟩ | ⟨c, hm, he⟩
          · have hc : p.2 = refCount s.handles p.1 := (hcnt _ hm).1
            have hpos : 0 < p.2 := (hcnt _ hm).2
            have hne2 : nsrc ≠ p.1 := fun hh => hne hh.symm
            refine ⟨?_, hpos⟩
            simp only [refCount_cons]
            simpa [hne2] using hc
          · have hc : c = refCount s.handles nsrc := (hcnt _ hm).1
            subst he
            constructor
            · simp only [refCount_cons]
              simp
              omega
            · show 0 < c + 1
              omega
        · intro q hq
          rw [bump_keys]
          rcases List.mem_cons.mp hq with hh | ht
          · subst hh
            exact hnsrc
          · exact href q ht
  | assign dst src =>
    cases hfd : hfind s.handles dst with
    | none =>
      simp only [rcStep, hfd]
      exact ⟨hndH, hndN, hcnt, href⟩
    | some nold =>
      cases hfs : hfind s.handles src with
      | none =>
        simp only [rcStep, hfd, hfs]
        exact ⟨hndH, hndN, hcnt, href⟩
      | some nnew =>
        by_cases hne : nold = nnew
        · simp only [rcStep, hfd, hfs]
          rw [if_pos hne]
          exact ⟨hndH, hndN, hcnt, href⟩
        · have hdstmem : (dst, nold) ∈ s.handles := hfind_mem hfd
          have hsrcmem : (src, nnew) ∈ s.handles := hfind_mem hfs
          have hnold : nold ∈ s.nodes.map Prod.fst := href _ hdstmem
          have hnnew : nnew ∈ s.nodes.map Prod.fst := href _ hsrcmem
          have hndD : ((decDel s.nodes nold).map Prod.fst).Nodup :=
            (decDel_keys_sublist s.nodes nold).nodup hndN
          have hnnewD : nnew ∈ (decDel s.nodes nold).map Prod.fst :=
            mem_keys_decDel hnnew (fun hh => hne hh.symm)
          have hrc : ∀ m, refCount (setNode s.handles dst nnew) m
              + (if nold = m then 1 else 0)
              = refCount s.handles m + (if nnew = m then 1 else 0) :=
            refCount_setNode hndH hdstmem nnew
          have hstep : rcStep s (.assign dst src)
              = ⟨setNode s.handles dst nnew,
                  bump (decDel s.nodes nold) nnew⟩ := by
            simp only [rcStep, hfd, hfs]
            rw [if_neg hne]
          rw [hstep]
          unfold rcInv
          dsimp only
          refine ⟨?_, ?_, ?_, ?_⟩
          · rw [setNode_keys]; exact hndH
          · rw [bump_keys]; exact hndD
          · intro p hp
            rcases mem_bump hndD hp with ⟨hmD, hpne⟩ | ⟨c, hmD, he⟩
            · rcases mem_decDel hndN hmD with ⟨hmN, hpno⟩
                | ⟨c, hmN, hcgt, he⟩
              · have hc : p.2 = refCount s.handles p.1 := (hcnt _ hmN).1
                have hpos : 0 < p.2 := (hcnt _ hmN).2
                have hrcp := hrc p.1
                rw [if_neg (fun hh => hpno hh.symm),
                  if_neg (fun hh => hpne hh.symm)] at hrcp
                refine ⟨?_, hpos⟩
                omega
              · have hc : c = refCount s.handles nold := (hcnt _ hmN).1
                have hrcn := hrc nold
                rw [if_pos rfl, if_neg (fun hh => hne hh.symm)] at hrcn
                subst he
                constructor
                · show c - 1 = refCount (setNode s.handles dst nnew) nold
                  omega
                · show 0 < c - 1
                  omega
            · rcases mem_decDel hndN hmD with ⟨hmN, hpno⟩
                | ⟨c2, hmN, hcgt2, he2⟩
              · have hc : c = refCount s.handles nnew := (hcnt _ hmN).1
                have hrcn := hrc nnew
                rw [if_neg hne, if_pos rfl] at hrcn
                subst he
                constructor
                · show c + 1 = refCount (setNode s.handles dst nnew) nnew
                  omega
                · show 0 < c + 1
                  omega
              · have hcontra : nnew = nold := congrArg Prod.fst he2
                exact (hne hcontra.symm).elim
          · intro q hq
            rw [bump_keys]
            rcases mem_setNode hndH hq with ⟨hmH, hqdst⟩ | ⟨c, hmH, he⟩
            · by_cases hqn : q.2 = nold
              · obtain ⟨cold, hcold⟩ := mem_keys_entry hnold
                have h2 : (q.1, nold) ∈ s.handles := by
                  rw [← hqn]; exact hmH
                have hge2 : 2 ≤ refCount s.handles nold :=
                  refCount_two hdstmem h2 (fun hh => hqdst hh.symm)
                have hceq : cold = refCount s.handles nold := (hcnt _ hcold).1
                have hcgt : 1 < cold := by omega
                rw [hqn]
                exact mem_keys_decDel_kept hndN hcold hcgt
              · exact mem_keys_decDel (href q hmH) hqn
            · rw [he]
              exact hnnewD
  | destroy h =>
    cases hfh : hfind s.handles h with
    | none =>
      simp only [rcStep, hfh]
      exact ⟨hndH, hndN, hcnt, href⟩
    | some n =>
      have hhmem : (h, n) ∈ s.handles := hfind_mem hfh
      have hn : n ∈ s.nodes.map Prod.fst := href _ hhmem
      have hrc : ∀ m, refCount (eraseKey s.handles h) m
          + (if n = m then 1 else 0) = refCount s.handles m :=
        refCount_eraseKey hndH hhmem
      have hstep : rcStep s (.destroy h)
          = ⟨eraseKey s.handles h, decDel s.nodes n⟩ := by
        simp only [rcStep, hfh]
      rw [hstep]
      unfold rcInv
      dsimp only
      refine ⟨?_, ?_, ?_, ?_⟩
      · exact (eraseKey_keys_sublist s.handles h).nodup hndH
      · exact (decDel_keys_sublist s.nodes n).nodup hndN
      · intro p hp
        rcases mem_decDel hndN hp with ⟨hmN, hpn⟩ | ⟨c, hmN, hcgt, he⟩
        · have hc : p.2 = refCount s.handles p.1 := (hcnt _ hmN).1
          have hpos : 0 < p.2 := (hcnt _ hmN).2
          have hrcp := hrc p.1
          rw [if_neg (fun hh => hpn hh.symm)] at hrcp
          refine ⟨?_, hpos⟩
          omega
        · have hc : c = refCount s.handles n := (hcnt _ hmN).1
          have hrcn := hrc n
          rw [if_pos rfl] at hrcn
          subst he
          constructor
          · show c - 1 = refCount (eraseKey s.handles h) n
            omega
          · show 0 < c - 1
            omega
      · intro q hq
        obtain ⟨hmH, hqh⟩ := mem_eraseKey hndH hq
        by_cases hqn : q.2 = n
        · obtain ⟨c, hcmem⟩ := mem_keys_entry hn
          have h2 : (q.1, n) ∈ s.handles := by
            rw [← hqn]; exact hmH
          have hge2 : 2 ≤ refCount s.handles n :=
            refCount_two hhmem h2 (fun hh => hqh hh.symm)
          have hceq : c = refCount s.handles n := (hcnt _ hcmem).1
          have hcgt : 1 < c := by omega
          rw [hqn]
          exact mem_keys_decDel_kept hndN hcmem hcgt
        · exact mem_keys_decDel (href q hmH) hqn

/-- C2: over every sequence of handle lifecycle operations, every live node's
count field equals the number of live handles referencing it and is positive —
the node is deallocated exactly when the count reaches zero, and live handles
always reference live nodes; moreover assignment between handles already
referencing the same node is a no-op short-circuit. -/
theorem c2_refcount_correctness :
    (∀ (ops : List RCOp) (s : RCState), rcInv s → rcInv (rcRun s ops)) ∧
    (∀ (s : RCState) (dst src n : Nat),
      hfind s.handles dst = some n → hfind s.handles src = some n →
      rcStep s (.assign dst src) = s) := by
  constructor
  · intro ops
    induction ops with
    | nil => intro s h; exact h
    | cons op t IH =>
      intro s h
      exact IH _ (rcStep_inv h op)
  · intro s dst src n hfd hfs
    simp [rcStep, hfd, hfs]

theorem c2_witness :
    rcInv (rcRun ⟨[], []⟩
      [.newNode 0 100, .copy 1 0, .newNode 2 101, .assign 2 0,
        .destroy 1, .destroy 0]) ∧
    rcStep ⟨[(0, 100), (1, 100)], [(100, 2)]⟩ (.assign 0 1)
      = ⟨[(0, 100), (1, 100)], [(100, 2)]⟩ :=
  ⟨c2_refcount_correctness.1
      [.newNode 0 100, .copy 1 0, .newNode 2 101, .assign 2 0,
        .destroy 1, .destroy 0] ⟨[], []⟩ (by decide),
    c2_refcount_correctness.2 ⟨[(0, 100), (1, 100)], [(100, 2)]⟩ 0 1 100
      (by decide) (by decide)⟩

theorem dAdd_comm (a b : DV) : dAdd a b = dAdd b a := by
  cases a <;> cases b <;> simp [dAdd, add_comm]

theorem dMul_comm (a b : DV) : dMul a b = dMul b a := by
  cases a <;> cases b <;> simp [dMul, mul_comm]

theorem dNeg_dNeg (v : DV) : dNeg (dNeg v) = v := by
  cases v <;> simp [dNeg]

theorem dEq_fin_iff {v : DV} {q : ℚ} : dEq v (.fin q) = true ↔ v = .fin q := by
  cases v <;> simp [dEq]

theorem isZeroK_eq {k : SXKind} (h : isZeroK k = true) : k = .kZero := by
  cases k <;> simp [isZeroK] at h <;> rfl

theorem isOneK_eq {k : SXKind} (h : isOneK k = true) : k = .kOne := by
  cases k <;> simp [isOneK] at h <;> rfl

theorem isMinusOneK_eq {k : SXKind} (h : isMinusOneK k = true) :
    k = .kMinusOne := by
  cases k <;> simp [isMinusOneK] at h <;> rfl

theorem isConstantK_isSymbolicK {k : SXKind} (h : isConstantK k = true) :
    isSymbolicK k = false := by
  cases k <;> simp_all [isConstantK, isSymbolicK]

theorem heapOK_deps {s : Heap} (h : heapOK s) {i : NodeId} (hi : i < s.length)
    {d : NodeId} (hd : d ∈ depsOf (s.get i)) : d < i :=
  (h.2 i (List.mem_range.mpr hi)).1 d hd

theorem hasDepK_lt_length {s : Heap} {x : NodeId}
    (h : hasDepK (s.get x) = true) : x < s.length := by
  by_contra hc
  have hnan : s.get x = .kNan := by
    unfold Heap.get
    exact List.getD_eq_default _ _ (Nat.le_of_not_lt hc)
  rw [hnan] at h
  simp [hasDepK] at h

theorem node_unary {s : Heap} (hOK : heapOK s) {y : NodeId} {op : Op}
    (har : opArity op = 1) (hdep : hasDepK (s.get y) = true)
    (hop : getOpK (s.get y) = op) : ∃ d, s.get y = .kUnary op d := by
  have hy : y < s.length := hasDepK_lt_length hdep
  have har2 := (hOK.2 y (List.mem_range.mpr hy)).2.1
  cases hk : s.get y
  case kUnary op2 d =>
    rw [hk] at hop
    simp only [getOpK] at hop
    exact ⟨d, by rw [hop]⟩
  case kBinary op2 d0 d1 =>
    rw [hk] at hop har2
    simp only [getOpK] at hop
    subst hop
    simp [arityOkK, har] at har2
  all_goals (rw [hk] at hdep; simp [hasDepK] at hdep)

theorem node_binary {s : Heap} (hOK : heapOK s) {y : NodeId} {op : Op}
    (har : opArity op = 2) (hdep : hasDepK (s.get y) = true)
    (hop : getOpK (s.get y) = op) : ∃ d0 d1, s.get y = .kBinary op d0 d1 := by
  have hy : y < s.length := hasDepK_lt_length hdep
  have har2 := (hOK.2 y (List.mem_range.mpr hy)).2.1
  cases hk : s.get y
  case kBinary op2 d0 d1 =>
    rw [hk] at hop
    simp only [getOpK] at hop
    exact ⟨d0, d1, by rw [hop]⟩
  case kUnary op2 d =>
    rw [hk] at hop har2
    simp only [getOpK] at hop
    subst hop
    simp [arityOkK, har] at har2
  all_goals (rw [hk] at hdep; simp [hasDepK] at hdep)

theorem opArity_of_dep {s : Heap} (hOK : heapOK s) {x : NodeId}
    (h : hasDepK (s.get x) = true) :
    opArity (getOpK (s.get x)) = 1 ∨ opArity (getOpK (s.get x)) = 2 := by
  have hx := hasDepK_lt_length h
  have har := (hOK.2 x (List.mem_range.mpr hx)).2.1
  cases hk : s.get x
  case kUnary op d =>
    rw [hk] at har
    simp only [getOpK]
    left
    simpa [arityOkK] using har
  case kBinary op d0 d1 =>
    rw [hk] at har
    simp only [getOpK]
    right
    simpa [arityOkK] using har
  all_goals (rw [hk] at h; simp [hasDepK] at h)

theorem evalF_step {s : Heap} {σ : String → ℚ} {fuel : Nat} {x : NodeId} :
    evalF s σ (fuel + 1) x
      = match s.get x with
        | .kSym n => some (.fin (σ n))
        | .kUnary op d => (evalF s σ fuel d).bind (evalUop op)
        | .kBinary op d0 d1 =>
          (evalF s σ fuel d0).bind fun a =>
            (evalF s σ fuel d1).bind fun b => evalBop op a b
        | k => some (getValueK k) := rfl

theorem evalF_step_sym {s : Heap} {σ : String → ℚ} {fuel : Nat} {x : NodeId}
    {n : String} (hk : s.get x = .kSym n) :
    evalF s σ (fuel + 1) x = some (.fin (σ n)) := by
  rw [evalF_step, hk]

theorem evalF_step_unary {s : Heap} {σ : String → ℚ} {fuel : Nat} {x : NodeId}
    {op : Op} {d : NodeId} (hk : s.get x = .kUnary op d) :
    evalF s σ (fuel + 1) x = (evalF s σ fuel d).bind (evalUop op) := by
  rw [evalF_step, hk]

theorem evalF_step_binary {s : Heap} {σ : String → ℚ} {fuel : Nat} {x : NodeId}
    {op : Op} {d0 d1 : NodeId} (hk : s.get x = .kBinary op d0 d1) :
    evalF s σ (fuel + 1) x
      = (evalF s σ fuel d0).bind fun a =>
          (evalF s σ fuel d1).bind fun b => evalBop op a b := by
  rw [evalF_step, hk]

theorem evalF_step_const {s : Heap} {σ : String → ℚ} {fuel : Nat} {x : NodeId}
    {k : SXKind} (hk : s.get x = k) (h1 : hasDepK k = false)
    (h2 : isSymbolicK k = false) :
    evalF s σ (fuel + 1) x = some (getValueK k) := by
  rw [evalF_step, hk]
  cases k
  case kSym n => simp [isSymbolicK] at h2
  case kUnary op d => simp [hasDepK] at h1
  case kBinary op d0 d1 => simp [hasDepK] at h1
  all_goals rfl

theorem evalF_extend {s : Heap} (hOK : heapOK s) (u : Heap) (σ : String → ℚ) :
    ∀ (fuel : Nat) (x : NodeId), x < s.length →
      evalF (s ++ u) σ fuel x = evalF s σ fuel x := by
  intro fuel
  induction fuel with
  | zero => intro x hx; rfl
  | succ fuel IH =>
    intro x hx
    have hget : Heap.get (s ++ u) x = s.get x := get_append_left u hx
    cases hk : s.get x
    case kSym n =>
      rw [evalF_step_sym (hget.trans hk), evalF_step_sym hk]
    case kUnary op d =>
      have hd : d < x := heapOK_deps hOK hx (by rw [hk]; simp [depsOf])
      rw [evalF_step_unary (hget.trans hk), evalF_step_unary hk,
        IH d (Nat.lt_trans hd hx)]
    case kBinary op d0 d1 =>
      have hd0 : d0 < x := heapOK_deps hOK hx (by rw [hk]; simp [depsOf])
      have hd1 : d1 < x := heapOK_deps hOK hx (by rw [hk]; simp [depsOf])
      rw [evalF_step_binary (hget.trans hk), evalF_step_binary hk,
        IH d0 (Nat.lt_trans hd0 hx), IH d1 (Nat.lt_trans hd1 hx)]
    all_goals
      rw [evalF_step_const (hget.trans hk) rfl rfl, evalF_step_const hk rfl rfl]

theorem evalF_stable {s : Heap} (hOK : heapOK s) (σ : String → ℚ) :
    ∀ (x fuel : Nat), x + 1 ≤ fuel → evalF s σ fuel x = evalN s σ x := by
  intro x
  induction x using Nat.strong_induction_on with
  | _ x IH =>
    intro fuel hfuel
    cases fuel with
    | zero => omega
    | succ fuel =>
    unfold evalN
    by_cases hx : x < s.length
    · cases hk : s.get x with
      | kSym n => rw [evalF_step_sym hk, evalF_step_sym hk]
      | kUnary op d =>
        have hd : d < x := heapOK_deps hOK hx (by rw [hk]; simp [depsOf])
        have hdf : d + 1 ≤ fuel := le_trans hd (Nat.le_of_succ_le_succ hfuel)
        have hdx : d + 1 ≤ x := hd
        rw [evalF_step_unary hk, evalF_step_unary hk, IH d hd fuel hdf,
          IH d hd x hdx]
      | kBinary op d0 d1 =>
        have hd0 : d0 < x := heapOK_deps hOK hx (by rw [hk]; simp [depsOf])
        have hd1 : d1 < x := heapOK_deps hOK hx (by rw [hk]; simp [depsOf])
        have hd0f : d0 + 1 ≤ fuel := le_trans hd0 (Nat.le_of_succ_le_succ hfuel)
        have hd0x : d0 + 1 ≤ x := hd0
        have hd1f : d1 + 1 ≤ fuel := le_trans hd1 (Nat.le_of_succ_le_succ hfuel)
        have hd1x : d1 + 1 ≤ x := hd1
        rw [evalF_step_binary hk, evalF_step_binary hk, IH d0 hd0 fuel hd0f,
          IH d0 hd0 x hd0x, IH d1 hd1 fuel hd1f, IH d1 hd1 x hd1x]
      | kZero => rw [evalF_step_const hk rfl rfl, evalF_step_const hk rfl rfl]
      | kOne => rw [evalF_step_const hk rfl rfl, evalF_step_const hk rfl rfl]
      | kMinusOne =>
        rw [evalF_step_const hk rfl rfl, evalF_step_const hk rfl rfl]
      | kNan => rw [evalF_step_const hk rfl rfl, evalF_step_const hk rfl rfl]
      | kInf => rw [evalF_step_const hk rfl rfl, evalF_step_const hk rfl rfl]
      | kMinusInf =>
        rw [evalF_step_const hk rfl rfl, evalF_step_const hk rfl rfl]
      | kInt v =>
        rw [evalF_step_const hk rfl rfl, evalF_step_const hk rfl rfl]
      | kReal q =>
        rw [evalF_step_const hk rfl rfl, evalF_step_const hk rfl rfl]
    · have hnan : s.get x = .kNan := by
        unfold Heap.get
        exact List.getD_eq_default _ _ (Nat.le_of_not_lt hx)
      rw [evalF_step_const hnan rfl rfl, evalF_step_const hnan rfl rfl]

theorem evalN_extend {s : Heap} (hOK : heapOK s) (u : Heap) (σ : String → ℚ)
    {x : NodeId} (hx : x < s.length) :
    evalN (s ++ u) σ x = evalN s σ x := by
  unfold evalN
  exact evalF_extend hOK u σ (x + 1) x hx

theorem heapLE_refl (s : Heap) : heapLE s s := ⟨[], by simp⟩

theorem heapLE_trans {a b c : Heap} (h1 : heapLE a b) (h2 : heapLE b c) :
    heapLE a c := by
  obtain ⟨u, rfl⟩ := h1
  obtain ⟨v, rfl⟩ := h2
  exact ⟨u ++ v, by rw [List.append_assoc]⟩

theorem heapLE_len {a b : Heap} (h : heapLE a b) : a.length ≤ b.length := by
  obtain ⟨u, rfl⟩ := h
  simp

theorem evalN_mono {s t : Heap} (hOK : heapOK s) (σ : String → ℚ) {x : NodeId}
    (hx : x < s.length) (hle : heapLE s t) : evalN t σ x = evalN s σ x := by
  obtain ⟨u, rfl⟩ := hle
  exact evalN_extend hOK u σ hx

theorem evalN_unary {s : Heap} (hOK : heapOK s) (σ : String → ℚ)
    {y : NodeId} {op : Op} {d : NodeId} (hk : s.get y = .kUnary op d) :
    evalN s σ y = (evalN s σ d).bind (evalUop op) := by
  have hy : y < s.length := hasDepK_lt_length (by rw [hk]; rfl)
  have hd : d < y := heapOK_deps hOK hy (by rw [hk]; simp [depsOf])
  have hL : evalN s σ y = (evalF s σ y d).bind (evalUop op) := by
    unfold evalN
    rw [evalF_step_unary hk]
  rw [hL, evalF_stable hOK σ d y hd]

theorem evalN_binary {s : Heap} (hOK : heapOK s) (σ : String → ℚ)
    {y : NodeId} {op : Op} {d0 d1 : NodeId}
    (hk : s.get y = .kBinary op d0 d1) :
    evalN s σ y = (evalN s σ d0).bind fun a =>
      (evalN s σ d1).bind fun b => evalBop op a b := by
  have hy : y < s.length := hasDepK_lt_length (by rw [hk]; rfl)
  have hd0 : d0 < y := heapOK_deps hOK hy (by rw [hk]; simp [depsOf])
  have hd1 : d1 < y := heapOK_deps hOK hy (by rw [hk]; simp [depsOf])
  have hL : evalN s σ y = (evalF s σ y d0).bind fun a =>
      (evalF s σ y d1).bind fun b => evalBop op a b := by
    unfold evalN
    rw [evalF_step_binary hk]
  rw [hL, evalF_stable hOK σ d0 y hd0, evalF_stable hOK σ d1 y hd1]

theorem evalN_const {s : Heap} (σ : String → ℚ) {x : NodeId} {k : SXKind}
    (hk : s.get x = k) (h1 : hasDepK k = false) (h2 : isSymbolicK k = false) :
    evalN s σ x = some (getValueK k) := by
  unfold evalN
  exact evalF_step_const hk h1 h2

theorem evalN_isConst {s : Heap} (σ : String → ℚ) {x : NodeId}
    (hc : isConstantK (s.get x) = true) :
    evalN s σ x = some (getValueK (s.get x)) :=
  evalN_const σ rfl (isConstantK_hasDepK hc) (isConstantK_isSymbolicK hc)

theorem commChecker_eq {op : Op} (h : commChecker op = true) :
    op = .ADD ∨ op = .MUL := by
  cases op
  case ADD => exact Or.inl rfl
  case MUL => exact Or.inr rfl
  all_goals simp [commChecker] at h

theorem isEquivalent_sound_fuel {s : Heap} (hOK : heapOK s) (σ : String → ℚ) :
    ∀ (dep : Nat) (x y : NodeId), isEquivalent s x y dep = true →
      ∀ fuel, evalF s σ fuel x = evalF s σ fuel y := by
  intro dep
  induction dep with
  | zero =>
    intro x y h fuel
    have hxy : x = y := by simpa [isEquivalent] using h
    rw [hxy]
  | succ dep IH =>
    intro x y h fuel
    by_cases hxy : x = y
    · rw [hxy]
    · rw [isEquivalent, if_neg (by simp [hxy])] at h
      by_cases hc : (hasDepK (s.get x) && hasDepK (s.get y)
          && (getOpK (s.get x) == getOpK (s.get y))) = true
      · rw [if_pos hc] at h
        simp only [Bool.and_eq_true, beq_iff_eq] at hc
        obtain ⟨⟨hdx, hdy⟩, hop⟩ := hc
        cases fuel with
        | zero => rfl
        | succ fuel =>
          rw [Bool.or_eq_true] at h
          rcases opArity_of_dep hOK hdx with har | har
          · obtain ⟨d, hkx⟩ := node_unary hOK har hdx rfl
            obtain ⟨e, hky⟩ := node_unary hOK har hdy hop.symm
            rcases h with h1 | h2
            · rw [hkx, hky] at h1
              simp only [dep0K, dep1K, Bool.and_eq_true] at h1
              rw [evalF_step_unary hkx, evalF_step_unary hky,
                IH d e h1.1 fuel]
            · rw [hkx, hky] at h2
              simp only [dep0K, dep1K, Bool.and_eq_true] at h2
              obtain ⟨⟨hcm, hd0⟩, h0e⟩ := h2
              rw [evalF_step_unary hkx, evalF_step_unary hky,
                IH d 0 hd0 fuel, IH 0 e h0e fuel]
          · obtain ⟨a0, a1, hkx⟩ := node_binary hOK har hdx rfl
            obtain ⟨b0, b1, hky⟩ := node_binary hOK har hdy hop.symm
            rcases h with h1 | h2
            · rw [hkx, hky] at h1
              simp only [dep0K, dep1K, Bool.and_eq_true] at h1
              rw [evalF_step_binary hkx, evalF_step_binary hky,
                IH a0 b0 h1.1 fuel, IH a1 b1 h1.2 fuel]
            · rw [hkx, hky] at h2
              simp only [dep0K, dep1K, getOpK, Bool.and_eq_true] at h2
              obtain ⟨⟨hcm, ha01⟩, ha10⟩ := h2
              have hcm2 : commChecker (getOpK (s.get x)) = true := hcm
              have hbop : ∀ a b, evalBop (getOpK (s.get x)) a b
                  = evalBop (getOpK (s.get x)) b a := by
                intro a b
                rcases commChecker_eq hcm2 with hco | hco
                · rw [hco]; simp [evalBop, dAdd_comm]
                · rw [hco]; simp [evalBop, dMul_comm]
              rw [evalF_step_binary hkx, evalF_step_binary hky,
                IH a0 b1 ha01 fuel, IH a1 b0 ha10 fuel]
              cases evalF s σ fuel b0 <;> cases evalF s σ fuel b1 <;>
                simp only [Option.bind_none, Option.bind_some,
                  Option.none_bind, Option.some_bind]
              exact hbop _ _
      · rw [if_neg hc] at h
        exact absurd h (by simp)

theorem isEquivalent_soundN {s : Heap} (hOK : heapOK s) (σ : String → ℚ)
    {x y : NodeId} {dep : Nat} (h : isEquivalent s x y dep = true) :
    evalN s σ x = evalN s σ y := by
  have h1 := isEquivalent_sound_fuel hOK σ dep x y h (x + y + 1)
  have hx1 : x + 1 ≤ x + y + 1 := Nat.succ_le_succ (Nat.le_add_right x y)
  have hy1 : y + 1 ≤ x + y + 1 := Nat.succ_le_succ (Nat.le_add_left y x)
  have hx := evalF_stable hOK σ x (x + y + 1) hx1
  have hy := evalF_stable hOK σ y (x + y + 1) hy1
  rw [← hx, ← hy, h1]

theorem heapOK_snoc {s : Heap} (hOK : heapOK s) {k : SXKind}
    (hdeps : ∀ d ∈ depsOf k, d < s.length) (har : arityOkK k = true)
    (hs0 : k ≠ .kZero) (hs1 : k ≠ .kOne) (hs2 : k ≠ .kMinusOne)
    (hs3 : k ≠ .kNan) (hs4 : k ≠ .kInf) (hs5 : k ≠ .kMinusInf) :
    heapOK (s ++ [k]) := by
  obtain ⟨h7, hnodes⟩ := hOK
  have hlen : 7 ≤ s.length := heapOK_len ⟨h7, hnodes⟩
  constructor
  · rw [List.take_append_of_le_length hlen]
    exact h7
  · intro i hi
    rw [List.mem_range, List.length_append, List.length_cons,
      List.length_nil] at hi
    by_cases hlt : i < s.length
    · have hgi : Heap.get (s ++ [k]) i = s.get i := get_append_left _ hlt
      have hni := hnodes i (List.mem_range.mpr hlt)
      unfold nodeOk at hni ⊢
      rw [hgi]
      exact hni
    · have hieq : i = s.length := by omega
      have hgi : Heap.get (s ++ [k]) i = k := by
        rw [hieq]; exact get_concat s k
      unfold nodeOk
      rw [hgi]
      refine ⟨fun d hd => ?_, har, fun hz => (hs0 hz).elim,
        fun hz => (hs1 hz).elim, fun hz => (hs2 hz).elim,
        fun hz => (hs3 hz).elim, fun hz => (hs4 hz).elim,
        fun hz => (hs5 hz).elim⟩
      rw [hieq]
      exact hdeps d hd

theorem evalN_singleton {s : Heap} (hOK : heapOK s) (σ : String → ℚ) :
    evalN s σ zeroId = some (.fin 0) ∧ evalN s σ oneId = some (.fin 1) ∧
    evalN s σ twoId = some (.fin 2) ∧
    evalN s σ minusOneId = some (.fin (-1)) ∧
    evalN s σ nanId = some .nan ∧ evalN s σ infId = some .pinf ∧
    evalN s σ minusInfId = some .ninf := by
  obtain ⟨h0, h1, h2, h3, h4, h5, h6⟩ := heapOK_singletons hOK
  refine ⟨evalN_const σ h0 rfl rfl, evalN_const σ h1 rfl rfl, ?_,
    evalN_const σ h3 rfl rfl, evalN_const σ h4 rfl rfl,
    evalN_const σ h5 rfl rfl, evalN_const σ h6 rfl rfl⟩
  show evalN s σ 2 = some (DV.fin 2)
  rw [evalN_const σ h2 rfl rfl]
  norm_num [getValueK]

theorem intCreate_sound {s : Heap} (hOK : heapOK s) (σ : String → ℚ)
    (v : ℤ) :
    heapOK (intCreate s v).1 ∧ heapLE s (intCreate s v).1 ∧
    (intCreate s v).2 < (intCreate s v).1.length ∧
    evalN (intCreate s v).1 σ (intCreate s v).2 = some (.fin (v : ℚ)) := by
  unfold intCreate
  cases hf : s.findIdx? (fun k => k == .kInt v) with
  | some i =>
    obtain ⟨hi, hp, _⟩ := List.findIdx?_eq_some_iff_getElem.mp hf
    have hk : s.get i = .kInt v := by
      unfold Heap.get
      rw [List.getD_eq_getElem?_getD, List.getElem?_eq_getElem hi]
      simpa using hp
    exact ⟨hOK, heapLE_refl s, hi, evalN_const σ hk rfl rfl⟩
  | none =>
    have hOK2 : heapOK (s ++ [.kInt v]) := heapOK_snoc hOK
      (by simp [depsOf]) rfl (by simp) (by simp) (by simp) (by simp)
      (by simp) (by simp)
    have hk : Heap.get (s ++ [.kInt v]) s.length = .kInt v := get_concat s _
    exact ⟨hOK2, ⟨[.kInt v], rfl⟩, by simp, evalN_const σ hk rfl rfl⟩

theorem realCreate_sound {s : Heap} (hOK : heapOK s) (σ : String → ℚ)
    (q : ℚ) :
    heapOK (realCreate s q).1 ∧ heapLE s (realCreate s q).1 ∧
    (realCreate s q).2 < (realCreate s q).1.length ∧
    evalN (realCreate s q).1 σ (realCreate s q).2 = some (.fin q) := by
  unfold realCreate
  cases hf : s.findIdx? (fun k => k == .kReal q) with
  | some i =>
    obtain ⟨hi, hp, _⟩ := List.findIdx?_eq_some_iff_getElem.mp hf
    have hk : s.get i = .kReal q := by
      unfold Heap.get
      rw [List.getD_eq_getElem?_getD, List.getElem?_eq_getElem hi]
      simpa using hp
    exact ⟨hOK, heapLE_refl s, hi, evalN_const σ hk rfl rfl⟩
  | none =>
    have hOK2 : heapOK (s ++ [.kReal q]) := heapOK_snoc hOK
      (by simp [depsOf]) rfl (by simp) (by simp) (by simp) (by simp)
      (by simp) (by simp)
    have hk : Heap.get (s ++ [.kReal q]) s.length = .kReal q := get_concat s _
    exact ⟨hOK2, ⟨[.kReal q], rfl⟩, by simp, evalN_const σ hk rfl rfl⟩

theorem fromDouble_fin {s : Heap} {q : ℚ} :
    fromDouble s (.fin q)
      = if q.den = 1 then
          if q.num = 0 then (s, zeroId)
          else if q.num = 1 then (s, oneId)
          else if q.num = 2 then (s, twoId)
          else if q.num = -1 then (s, minusOneId)
          else intCreate s q.num
        else realCreate s q := rfl

theorem fromDouble_sound {s : Heap} (hOK : heapOK s) (σ : String → ℚ)
    (v : DV) :
    heapOK (fromDouble s v).1 ∧ heapLE s (fromDouble s v).1 ∧
    (fromDouble s v).2 < (fromDouble s v).1.length ∧
    evalN (fromDouble s v).1 σ (fromDouble s v).2 = some v := by
  have hlen : 7 ≤ s.length := heapOK_len hOK
  obtain ⟨h0, h1, h2, h3, h4, h5, h6⟩ := evalN_singleton hOK σ
  cases v with
  | nan =>
    exact ⟨hOK, heapLE_refl s, by show (4:Nat) < s.length; omega, h4⟩
  | pinf =>
    exact ⟨hOK, heapLE_refl s, by show (5:Nat) < s.length; omega, h5⟩
  | ninf =>
    exact ⟨hOK, heapLE_refl s, by show (6:Nat) < s.length; omega, h6⟩
  | fin q =>
    by_cases hden : q.den = 1
    · have hnum : (q.num : ℚ) = q := (Rat.den_eq_one_iff q).mp hden
      by_cases h0n : q.num = 0
      · have hstep : fromDouble s (.fin q) = (s, zeroId) := by
          rw [fromDouble_fin, if_pos hden, if_pos h0n]
        rw [hstep]
        refine ⟨hOK, heapLE_refl s, by show (0:Nat) < s.length; omega, ?_⟩
        rw [h0, Rat.num_eq_zero.mp h0n]
      · by_cases h1n : q.num = 1
        · have hq : q = 1 := by rw [← hnum, h1n]; norm_num
          have hstep : fromDouble s (.fin q) = (s, oneId) := by
            rw [fromDouble_fin, if_pos hden, if_neg h0n, if_pos h1n]
          rw [hstep]
          refine ⟨hOK, heapLE_refl s, by show (1:Nat) < s.length; omega, ?_⟩
          rw [h1, hq]
        · by_cases h2n : q.num = 2
          · have hq : q = 2 := by rw [← hnum, h2n]; norm_num
            have hstep : fromDouble s (.fin q) = (s, twoId) := by
              rw [fromDouble_fin, if_pos hden, if_neg h0n, if_neg h1n,
                if_pos h2n]
            rw [hstep]
            refine ⟨hOK, heapLE_refl s, by show (2:Nat) < s.length; omega, ?_⟩
            rw [h2, hq]
          · by_cases hm1 : q.num = -1
            · have hq : q = -1 := by rw [← hnum, hm1]; norm_num
              have hstep : fromDouble s (.fin q) = (s, minusOneId) := by
                rw [fromDouble_fin, if_pos hden, if_neg h0n, if_neg h1n,
                  if_neg h2n, if_pos hm1]
              rw [hstep]
              refine ⟨hOK, heapLE_refl s,
                by show (3:Nat) < s.length; omega, ?_⟩
              rw [h3, hq]
            · have hstep : fromDouble s (.fin q) = intCreate s q.num := by
                rw [fromDouble_fin, if_pos hden, if_neg h0n, if_neg h1n,
                  if_neg h2n, if_neg hm1]
              rw [hstep]
              have hic := intCreate_sound hOK σ q.num
              refine ⟨hic.1, hic.2.1, hic.2.2.1, ?_⟩
              rw [hic.2.2.2, hnum]
    · have hstep : fromDouble s (.fin q) = realCreate s q := by
        rw [fromDouble_fin, if_neg hden]
      rw [hstep]
      exact realCreate_sound hOK σ q

theorem createUnary_sound {s : Heap} (hOK : heapOK s) (σ : String → ℚ)
    {op : Op} {y : NodeId} {w v : DV} (hy : y < s.length)
    (har : opArity op = 1) (hw : evalN s σ y = some w)
    (hv : evalUop op w = some v) :
    heapOK (createUnary s op y).1 ∧ heapLE s (createUnary s op y).1 ∧
    (createUnary s op y).2 < (createUnary s op y).1.length ∧
    evalN (createUnary s op y).1 σ (createUnary s op y).2 = some v := by
  have hOK2 : heapOK (s ++ [.kUnary op y]) := heapOK_snoc hOK
    (by simpa [depsOf] using hy) (by simp [arityOkK, har]) (by simp)
    (by simp) (by simp) (by simp) (by simp) (by simp)
  have hk : Heap.get (s ++ [.kUnary op y]) s.length = .kUnary op y :=
    get_concat s _
  refine ⟨hOK2, ⟨[.kUnary op y], rfl⟩, by simp [createUnary], ?_⟩
  show evalN (s ++ [.kUnary op y]) σ s.length = some v
  rw [evalN_unary hOK2 σ hk, evalN_extend hOK [.kUnary op y] σ hy, hw]
  simpa using hv

theorem createBinary_sound {s : Heap} (hOK : heapOK s) (σ : String → ℚ)
    {op : Op} {x y : NodeId} {vx vy w : DV} (hx : x < s.length)
    (hy : y < s.length) (har : opArity op = 2)
    (hvx : evalN s σ x = some vx) (hvy : evalN s σ y = some vy)
    (hw : evalBop op vx vy = some w) :
    heapOK (createBinary s op x y).1 ∧ heapLE s (createBinary s op x y).1 ∧
    (createBinary s op x y).2 < (createBinary s op x y).1.length ∧
    evalN (createBinary s op x y).1 σ (createBinary s op x y).2 = some w := by
  unfold createBinary
  by_cases hc : (isConstantK (s.get x) && isConstantK (s.get y)) = true
  · rw [if_pos hc]
    simp only [Bool.and_eq_true] at hc
    have hgx : getValueK (s.get x) = vx := by
      have := evalN_isConst σ hc.1
      rw [hvx] at this
      exact (Option.some.inj this).symm
    have hgy : getValueK (s.get y) = vy := by
      have := evalN_isConst σ hc.2
      rw [hvy] at this
      exact (Option.some.inj this).symm
    rw [hgx, hgy, hw]
    exact fromDouble_sound hOK σ w
  · rw [if_neg hc]
    have hOK2 : heapOK (s ++ [.kBinary op x y]) := heapOK_snoc hOK
      (by simp [depsOf]; exact ⟨hx, hy⟩) (by simp [arityOkK, har]) (by simp)
      (by simp) (by simp) (by simp) (by simp) (by simp)
    have hk : Heap.get (s ++ [.kBinary op x y]) s.length = .kBinary op x y :=
      get_concat s _
    refine ⟨hOK2, ⟨[.kBinary op x y], rfl⟩, by simp, ?_⟩
    show evalN (s ++ [.kBinary op x y]) σ s.length = some w
    rw [evalN_binary hOK2 σ hk, evalN_extend hOK [.kBinary op x y] σ hx,
      evalN_extend hOK [.kBinary op x y] σ hy, hvx, hvy]
    simpa using hw

theorem negH_sound {s : Heap} (hOK : heapOK s) (σ : String → ℚ)
    {y : NodeId} {w : DV} (hy : y < s.length) (hw : evalN s σ y = some w) :
    heapOK (negH s y).1 ∧ heapLE s (negH s y).1 ∧
    (negH s y).2 < (negH s y).1.length ∧
    evalN (negH s y).1 σ (negH s y).2 = some (dNeg w) := by
  have hlen : 7 ≤ s.length := heapOK_len hOK
  obtain ⟨e0, e1, e2, e3, e4, e5, e6⟩ := evalN_singleton hOK σ
  unfold negH
  by_cases h1 : (hasDepK (s.get y) && (getOpK (s.get y) == Op.NEG)) = true
  · rw [if_pos h1]
    simp only [Bool.and_eq_true, beq_iff_eq] at h1
    obtain ⟨d, hk⟩ := node_unary hOK (rfl : opArity Op.NEG = 1) h1.1 h1.2
    have hd : d < y := heapOK_deps hOK hy (by rw [hk]; simp [depsOf])
    rw [evalN_unary hOK σ hk] at hw
    cases hvd : evalN s σ d with
    | none => rw [hvd] at hw; simp at hw
    | some u =>
      rw [hvd] at hw
      simp [evalUop] at hw
      have hdep0 : dep0K (s.get y) = d := by rw [hk]; rfl
      rw [hdep0]
      refine ⟨hOK, heapLE_refl s, Nat.lt_trans hd hy, ?_⟩
      rw [hvd, ← hw, dNeg_dNeg]
  · rw [if_neg h1]
    by_cases h2 : isZeroK (s.get y) = true
    · rw [if_pos h2]
      have hk := isZeroK_eq h2
      have hwv : w = .fin 0 := by
        rw [evalN_const σ hk rfl rfl] at hw
        simpa [getValueK] using hw.symm
      refine ⟨hOK, heapLE_refl s, by show (0:Nat) < s.length; omega, ?_⟩
      rw [e0, hwv]
      norm_num [dNeg]
    · rw [if_neg h2]
      by_cases h3 : isMinusOneK (s.get y) = true
      · rw [if_pos h3]
        have hk := isMinusOneK_eq h3
        have hwv : w = .fin (-1) := by
          rw [evalN_const σ hk rfl rfl] at hw
          simpa [getValueK] using hw.symm
        refine ⟨hOK, heapLE_refl s, by show (1:Nat) < s.length; omega, ?_⟩
        rw [e1, hwv]
        norm_num [dNeg]
      · rw [if_neg h3]
        by_cases h4 : isOneK (s.get y) = true
        · rw [if_pos h4]
          have hk := isOneK_eq h4
          have hwv : w = .fin 1 := by
            rw [evalN_const σ hk rfl rfl] at hw
            simpa [getValueK] using hw.symm
          refine ⟨hOK, heapLE_refl s,
            by show (3:Nat) < s.length; omega, ?_⟩
          rw [e3, hwv]
          norm_num [dNeg]
        · rw [if_neg h4]
          exact createUnary_sound hOK σ hy rfl hw rfl

theorem addsubF_step_add {s : Heap} {fuel : Nat} {x y : NodeId} :
    addsubF s (fuel + 1) false x y
      = if isZeroK (s.get x) then (s, y)
        else if isZeroK (s.get y) then (s, x)
        else if hasDepK (s.get y) && (getOpK (s.get y) == .NEG) then
          addsubF s fuel true x (dep0K (s.get y))
        else if hasDepK (s.get x) && (getOpK (s.get x) == .NEG) then
          addsubF s fuel true y (dep0K (s.get x))
        else if hasDepK (s.get x) && (getOpK (s.get x) == .MUL)
            && hasDepK (s.get y) && (getOpK (s.get y) == .MUL)
            && isConstantK (s.get (dep0K (s.get x)))
            && dEq (getValueK (s.get (dep0K (s.get x)))) (.fin (1/2))
            && isConstantK (s.get (dep0K (s.get y)))
            && dEq (getValueK (s.get (dep0K (s.get y)))) (.fin (1/2))
            && isEquivalent s (dep1K (s.get y)) (dep1K (s.get x))
                defaultEqDepth then
          (s, dep1K (s.get x))
        else if hasDepK (s.get x) && (getOpK (s.get x) == .DIV)
            && hasDepK (s.get y) && (getOpK (s.get y) == .DIV)
            && isConstantK (s.get (dep1K (s.get x)))
            && dEq (getValueK (s.get (dep1K (s.get x)))) (.fin 2)
            && isConstantK (s.get (dep1K (s.get y)))
            && dEq (getValueK (s.get (dep1K (s.get y)))) (.fin 2)
            && isEquivalent s (dep0K (s.get y)) (dep0K (s.get x))
                defaultEqDepth then
          (s, dep0K (s.get x))
        else createBinary s .ADD x y := rfl

theorem addsubF_step_sub {s : Heap} {fuel : Nat} {x y : NodeId} :
    addsubF s (fuel + 1) true x y
      = if isZeroK (s.get y) then (s, x)
        else if isZeroK (s.get x) then negH s y
        else if isEquivalent s x y defaultEqDepth then (s, zeroId)
        else if hasDepK (s.get y) && (getOpK (s.get y) == .NEG) then
          addsubF s fuel false x (dep0K (s.get y))
        else createBinary s .SUB x y := rfl

theorem evalN_kind_fin {s : Heap} (σ : String → ℚ) {x : NodeId} {k : SXKind}
    {qa : ℚ} (hk : s.get x = k) (h1 : hasDepK k = false)
    (h2 : isSymbolicK k = false) (hv : evalN s σ x = some (.fin qa)) :
    getValueK k = .fin qa := by
  rw [evalN_const σ hk h1 h2] at hv
  exact Option.some.inj hv

theorem createBinary_preserve {s : Heap} (hOK : heapOK s) (op : Op)
    {x y : NodeId} (hx : x < s.length) (hy : y < s.length)
    (har : opArity op = 2) :
    heapOK (createBinary s op x y).1 ∧ heapLE s (createBinary s op x y).1 ∧
    (createBinary s op x y).2 < (createBinary s op x y).1.length := by
  unfold createBinary
  have halloc : heapOK (s ++ [.kBinary op x y]) := heapOK_snoc hOK
    (by simp [depsOf]; exact ⟨hx, hy⟩) (by simp [arityOkK, har]) (by simp)
    (by simp) (by simp) (by simp) (by simp) (by simp)
  by_cases hc : (isConstantK (s.get x) && isConstantK (s.get y)) = true
  · rw [if_pos hc]
    cases hb : evalBop op (getValueK (s.get x)) (getValueK (s.get y)) with
    | some w =>
      have hfd := fromDouble_sound hOK (fun _ => 0) w
      exact ⟨hfd.1, hfd.2.1, hfd.2.2.1⟩
    | none => exact ⟨halloc, ⟨[.kBinary op x y], rfl⟩, by simp⟩
  · rw [if_neg hc]
    exact ⟨halloc, ⟨[.kBinary op x y], rfl⟩, by simp⟩

theorem negH_preserve {s : Heap} (hOK : heapOK s) {y : NodeId}
    (hy : y < s.length) :
    heapOK (negH s y).1 ∧ heapLE s (negH s y).1 ∧
    (negH s y).2 < (negH s y).1.length := by
  have hlen : 7 ≤ s.length := heapOK_len hOK
  unfold negH
  by_cases h1 : (hasDepK (s.get y) && (getOpK (s.get y) == Op.NEG)) = true
  · rw [if_pos h1]
    simp only [Bool.and_eq_true, beq_iff_eq] at h1
    obtain ⟨d, hk⟩ := node_unary hOK (rfl : opArity Op.NEG = 1) h1.1 h1.2
    have hd : d < y := heapOK_deps hOK hy (by rw [hk]; simp [depsOf])
    have hdep0 : dep0K (s.get y) = d := by rw [hk]; rfl
    rw [hdep0]
    exact ⟨hOK, heapLE_refl s, Nat.lt_trans hd hy⟩
  · rw [if_neg h1]
    by_cases h2 : isZeroK (s.get y) = true
    · rw [if_pos h2]
      exact ⟨hOK, heapLE_refl s, by show (0:Nat) < s.length; omega⟩
    · rw [if_neg h2]
      by_cases h3 : isMinusOneK (s.get y) = true
      · rw [if_pos h3]
        exact ⟨hOK, heapLE_refl s, by show (1:Nat) < s.length; omega⟩
      · rw [if_neg h3]
        by_cases h4 : isOneK (s.get y) = true
        · rw [if_pos h4]
          exact ⟨hOK, heapLE_refl s, by show (3:Nat) < s.length; omega⟩
        · rw [if_neg h4]
          have hOK2 : heapOK (s ++ [.kUnary .NEG y]) := heapOK_snoc hOK
            (by simpa [depsOf] using hy) rfl (by simp) (by simp) (by simp)
            (by simp) (by simp) (by simp)
          exact ⟨hOK2, ⟨[.kUnary .NEG y], rfl⟩, by simp [createUnary]⟩

theorem addsubF_preserve {s : Heap} (hOK : heapOK s) :
    ∀ (fuel : Nat) (sel : Bool) (x y : NodeId), x < s.length → y < s.length →
      heapOK (addsubF s fuel sel x y).1 ∧
      heapLE s (addsubF s fuel sel x y).1 ∧
      (addsubF s fuel sel x y).2 < (addsubF s fuel sel x y).1.length := by
  have hlen : 7 ≤ s.length := heapOK_len hOK
  intro fuel
  induction fuel with
  | zero =>
    intro sel x y hx hy
    exact createBinary_preserve hOK (if sel then .SUB else .ADD) hx hy
      (by cases sel <;> rfl)
  | succ fuel IH =>
    intro sel x y hx hy
    cases sel
    case true =>
      rw [addsubF_step_sub]
      by_cases h1 : isZeroK (s.get y) = true
      · rw [if_pos h1]; exact ⟨hOK, heapLE_refl s, hx⟩
      · rw [if_neg h1]
        by_cases h2 : isZeroK (s.get x) = true
        · rw [if_pos h2]; exact negH_preserve hOK hy
        · rw [if_neg h2]
          by_cases h3 : isEquivalent s x y defaultEqDepth = true
          · rw [if_pos h3]
            exact ⟨hOK, heapLE_refl s, by show (0:Nat) < s.length; omega⟩
          · rw [if_neg h3]
            by_cases h4 : (hasDepK (s.get y)
                && (getOpK (s.get y) == Op.NEG)) = true
            · rw [if_pos h4]
              simp only [Bool.and_eq_true, beq_iff_eq] at h4
              obtain ⟨d, hk⟩ :=
                node_unary hOK (rfl : opArity Op.NEG = 1) h4.1 h4.2
              have hd : d < y := heapOK_deps hOK hy
                (by rw [hk]; simp [depsOf])
              have hdep0 : dep0K (s.get y) = d := by rw [hk]; rfl
              rw [hdep0]
              exact IH false x d hx (Nat.lt_trans hd hy)
            · rw [if_neg h4]
              exact createBinary_preserve hOK .SUB hx hy rfl
    case false =>
      rw [addsubF_step_add]
      by_cases h1 : isZeroK (s.get x) = true
      · rw [if_pos h1]; exact ⟨hOK, heapLE_refl s, hy⟩
      · rw [if_neg h1]
        by_cases h2 : isZeroK (s.get y) = true
        · rw [if_pos h2]; exact ⟨hOK, heapLE_refl s, hx⟩
        · rw [if_neg h2]
          by_cases h3 : (hasDepK (s.get y)
              && (getOpK (s.get y) == Op.NEG)) = true
          · rw [if_pos h3]
            simp only [Bool.and_eq_true, beq_iff_eq] at h3
            obtain ⟨d, hk⟩ :=
              node_unary hOK (rfl : opArity Op.NEG = 1) h3.1 h3.2
            have hd : d < y := heapOK_deps hOK hy
              (by rw [hk]; simp [depsOf])
            have hdep0 : dep0K (s.get y) = d := by rw [hk]; rfl
            rw [hdep0]
            exact IH true x d hx (Nat.lt_trans hd hy)
          · rw [if_neg h3]
            by_cases h4 : (hasDepK (s.get x)
                && (getOpK (s.get x) == Op.NEG)) = true
            · rw [if_pos h4]
              simp only [Bool.and_eq_true, beq_iff_eq] at h4
              obtain ⟨d, hk⟩ :=
                node_unary hOK (rfl : opArity Op.NEG = 1) h4.1 h4.2
              have hd : d < x := heapOK_deps hOK hx
                (by rw [hk]; simp [depsOf])
              have hdep0 : dep0K (s.get x) = d := by rw [hk]; rfl
              rw [hdep0]
              exact IH true y d hy (Nat.lt_trans hd hx)
            · rw [if_neg h4]
              by_cases h5 : (hasDepK (s.get x) && (getOpK (s.get x) == .MUL)
                  && hasDepK (s.get y) && (getOpK (s.get y) == .MUL)
                  && isConstantK (s.get (dep0K (s.get x)))
                  && dEq (getValueK (s.get (dep0K (s.get x)))) (.fin (1/2))
                  && isConstantK (s.get (dep0K (s.get y)))
                  && dEq (getValueK (s.get (dep0K (s.get y)))) (.fin (1/2))
                  && isEquivalent s (dep1K (s.get y)) (dep1K (s.get x))
                      defaultEqDepth) = true
              · rw [if_pos h5]
                simp only [Bool.and_eq_true, beq_iff_eq] at h5
                obtain ⟨⟨⟨⟨⟨⟨⟨⟨hdx5, hopx5⟩, hdy5⟩, hopy5⟩, _⟩, _⟩, _⟩,
                  _⟩, _⟩ := h5
                obtain ⟨a0, a1, hkx⟩ :=
                  node_binary hOK (rfl : opArity Op.MUL = 2) hdx5 hopx5
                have ha1 : a1 < x := heapOK_deps hOK hx
                  (by rw [hkx]; simp [depsOf])
                have hdep1 : dep1K (s.get x) = a1 := by rw [hkx]; rfl
                rw [hdep1]
                exact ⟨hOK, heapLE_refl s, Nat.lt_trans ha1 hx⟩
              · rw [if_neg h5]
                by_cases h6 : (hasDepK (s.get x) && (getOpK (s.get x) == .DIV)
                    && hasDepK (s.get y) && (getOpK (s.get y) == .DIV)
                    && isConstantK (s.get (dep1K (s.get x)))
                    && dEq (getValueK (s.get (dep1K (s.get x)))) (.fin 2)
                    && isConstantK (s.get (dep1K (s.get y)))
                    && dEq (getValueK (s.get (dep1K (s.get y)))) (.fin 2)
                    && isEquivalent s (dep0K (s.get y)) (dep0K (s.get x))
                        defaultEqDepth) = true
                · rw [if_pos h6]
                  simp only [Bool.and_eq_true, beq_iff_eq] at h6
                  obtain ⟨⟨⟨⟨⟨⟨⟨⟨hdx6, hopx6⟩, hdy6⟩, hopy6⟩, _⟩, _⟩, _⟩,
                    _⟩, _⟩ := h6
                  obtain ⟨a0, a1, hkx⟩ :=
                    node_binary hOK (rfl : opArity Op.DIV = 2) hdx6 hopx6
                  have ha0 : a0 < x := heapOK_deps hOK hx
                    (by rw [hkx]; simp [depsOf])
                  have hdep0 : dep0K (s.get x) = a0 := by rw [hkx]; rfl
                  rw [hdep0]
                  exact ⟨hOK, heapLE_refl s, Nat.lt_trans ha0 hx⟩
                · rw [if_neg h6]
                  exact createBinary_preserve hOK .ADD hx hy rfl

theorem addsubF_sound {s : Heap} (hOK : heapOK s) (σ : String → ℚ) :
    ∀ (fuel : Nat) (sel : Bool) (x y : NodeId) (qa qb : ℚ),
      x < s.length → y < s.length →
      evalN s σ x = some (.fin qa) → evalN s σ y = some (.fin qb) →
      heapOK (addsubF s fuel sel x y).1 ∧
      heapLE s (addsubF s fuel sel x y).1 ∧
      (addsubF s fuel sel x y).2 < (addsubF s fuel sel x y).1.length ∧
      evalN (addsubF s fuel sel x y).1 σ (addsubF s fuel sel x y).2
        = some (.fin (if sel then qa - qb else qa + qb)) := by
  have hlen : 7 ≤ s.length := heapOK_len hOK
  obtain ⟨e0, e1, e2, e3, e4, e5, e6⟩ := evalN_singleton hOK σ
  intro fuel
  induction fuel with
  | zero =>
    intro sel x y qa qb hx hy hvx hvy
    cases sel
    case false =>
      exact createBinary_sound hOK σ hx hy (rfl : opArity Op.ADD = 2)
        hvx hvy rfl
    case true =>
      refine createBinary_sound hOK σ hx hy (rfl : opArity Op.SUB = 2)
        hvx hvy ?_
      simp [evalBop, dSub, dAdd, dNeg, sub_eq_add_neg]
  | succ fuel IH =>
    intro sel x y qa qb hx hy hvx hvy
    cases sel
    case true =>
      rw [addsubF_step_sub]
      by_cases h1 : isZeroK (s.get y) = true
      · rw [if_pos h1]
        have hqb : (0:ℚ) = qb := by
          simpa [getValueK] using evalN_kind_fin σ (isZeroK_eq h1) rfl rfl hvy
        refine ⟨hOK, heapLE_refl s, hx, ?_⟩
        rw [hvx, ← hqb]
        norm_num
      · rw [if_neg h1]
        by_cases h2 : isZeroK (s.get x) = true
        · rw [if_pos h2]
          have hqa : (0:ℚ) = qa := by
            simpa [getValueK] using
              evalN_kind_fin σ (isZeroK_eq h2) rfl rfl hvx
          have hres := negH_sound hOK σ hy hvy
          refine ⟨hres.1, hres.2.1, hres.2.2.1, ?_⟩
          rw [hres.2.2.2, ← hqa]
          norm_num [dNeg]
        · rw [if_neg h2]
          by_cases h3 : isEquivalent s x y defaultEqDepth = true
          · rw [if_pos h3]
            have heq := isEquivalent_soundN hOK σ h3
            rw [hvx, hvy] at heq
            simp only [Option.some.injEq, DV.fin.injEq] at heq
            refine ⟨hOK, heapLE_refl s,
              by show (0:Nat) < s.length; omega, ?_⟩
            rw [e0, heq]
            norm_num
          · rw [if_neg h3]
            by_cases h4 : (hasDepK (s.get y)
                && (getOpK (s.get y) == Op.NEG)) = true
            · rw [if_pos h4]
              simp only [Bool.and_eq_true, beq_iff_eq] at h4
              obtain ⟨d, hk⟩ :=
                node_unary hOK (rfl : opArity Op.NEG = 1) h4.1 h4.2
              have hd : d < y := heapOK_deps hOK hy
                (by rw [hk]; simp [depsOf])
              have hdep0 : dep0K (s.get y) = d := by rw [hk]; rfl
              rw [hdep0]
              rw [evalN_unary hOK σ hk] at hvy
              cases hvd : evalN s σ d with
              | none => rw [hvd] at hvy; simp at hvy
              | some u =>
                rw [hvd] at hvy
                simp only [Option.some_bind, evalUop,
                  Option.some.injEq] at hvy
                have hu : u = .fin (-qb) := by
                  cases u with
                  | fin p =>
                    simp only [dNeg, DV.fin.injEq] at hvy
                    rw [← hvy]
                    norm_num
                  | nan => simp [dNeg] at hvy
                  | pinf => simp [dNeg] at hvy
                  | ninf => simp [dNeg] at hvy
                rw [hu] at hvd
                have hres := IH false x d qa (-qb) hx
                  (Nat.lt_trans hd hy) hvx hvd
                refine ⟨hres.1, hres.2.1, hres.2.2.1, ?_⟩
                rw [hres.2.2.2]
                norm_num [sub_eq_add_neg]
            · rw [if_neg h4]
              refine createBinary_sound hOK σ hx hy
                (rfl : opArity Op.SUB = 2) hvx hvy ?_
              simp [evalBop, dSub, dAdd, dNeg, sub_eq_add_neg]
    case false =>
      rw [addsubF_step_add]
      by_cases h1 : isZeroK (s.get x) = true
      · rw [if_pos h1]
        have hqa : (0:ℚ) = qa := by
          simpa [getValueK] using evalN_kind_fin σ (isZeroK_eq h1) rfl rfl hvx
        refine ⟨hOK, heapLE_refl s, hy, ?_⟩
        rw [hvy, ← hqa]
        norm_num
      · rw [if_neg h1]
        by_cases h2 : isZeroK (s.get y) = true
        · rw [if_pos h2]
          have hqb : (0:ℚ) = qb := by
            simpa [getValueK] using
              evalN_kind_fin σ (isZeroK_eq h2) rfl rfl hvy
          refine ⟨hOK, heapLE_refl s, hx, ?_⟩
          rw [hvx, ← hqb]
          norm_num
        · rw [if_neg h2]
          by_cases h3 : (hasDepK (s.get y)
              && (getOpK (s.get y) == Op.NEG)) = true
          · rw [if_pos h3]
            simp only [Bool.and_eq_true, beq_iff_eq] at h3
            obtain ⟨d, hk⟩ :=
              node_unary hOK (rfl : opArity Op.NEG = 1) h3.1 h3.2
            have hd : d < y := heapOK_deps hOK hy
              (by rw [hk]; simp [depsOf])
            have hdep0 : dep0K (s.get y) = d := by rw [hk]; rfl
            rw [hdep0]
            rw [evalN_unary hOK σ hk] at hvy
            cases hvd : evalN s σ d with
            | none => rw [hvd] at hvy; simp at hvy
            | some u =>
              rw [hvd] at hvy
              simp only [Option.some_bind, evalUop, Option.some.injEq] at hvy
              have hu : u = .fin (-qb) := by
                cases u with
                | fin p =>
                  simp only [dNeg, DV.fin.injEq] at hvy
                  rw [← hvy]
                  norm_num
                | nan => simp [dNeg] at hvy
                | pinf => simp [dNeg] at hvy
                | ninf => simp [dNeg] at hvy
              rw [hu] at hvd
              have hres := IH true x d qa (-qb) hx
                (Nat.lt_trans hd hy) hvx hvd
              refine ⟨hres.1, hres.2.1, hres.2.2.1, ?_⟩
              rw [hres.2.2.2]
              norm_num [sub_eq_add_neg]
          · rw [if_neg h3]
            by_cases h4 : (hasDepK (s.get x)
                && (getOpK (s.get x) == Op.NEG)) = true
            · rw [if_pos h4]
              simp only [Bool.and_eq_true, beq_iff_eq] at h4
              obtain ⟨d, hk⟩ :=
                node_unary hOK (rfl : opArity Op.NEG = 1) h4.1 h4.2
              have hd : d < x := heapOK_deps hOK hx
                (by rw [hk]; simp [depsOf])
              have hdep0 : dep0K (s.get x) = d := by rw [hk]; rfl
              rw [hdep0]
              rw [evalN_unary hOK σ hk] at hvx
              cases hvd : evalN s σ d with
              | none => rw [hvd] at hvx; simp at hvx
              | some u =>
                rw [hvd] at hvx
                simp only [Option.some_bind, evalUop,
                  Option.some.injEq] at hvx
                have hu : u = .fin (-qa) := by
                  cases u with
                  | fin p =>
                    simp only [dNeg, DV.fin.injEq] at hvx
                    rw [← hvx]
                    norm_num
                  | nan => simp [dNeg] at hvx
                  | pinf => simp [dNeg] at hvx
                  | ninf => simp [dNeg] at hvx
                rw [hu] at hvd
                have hres := IH true y d qb (-qa) hy
                  (Nat.lt_trans hd hx) hvy hvd
                refine ⟨hres.1, hres.2.1, hres.2.2.1, ?_⟩
                rw [hres.2.2.2]
                have harith : qb - -qa = qa + qb := by ring
                rw [if_pos rfl, harith]
                norm_num
            · rw [if_neg h4]
              by_cases h5 : (hasDepK (s.get x) && (getOpK (s.get x) == .MUL)
                  && hasDepK (s.get y) && (getOpK (s.get y) == .MUL)
                  && isConstantK (s.get (dep0K (s.get x)))
                  && dEq (getValueK (s.get (dep0K (s.get x)))) (.fin (1/2))
                  && isConstantK (s.get (dep0K (s.get y)))
                  && dEq (getValueK (s.get (dep0K (s.get y)))) (.fin (1/2))
                  && isEquivalent s (dep1K (s.get y)) (dep1K (s.get x))
                      defaultEqDepth) = true
              · rw [if_pos h5]
                simp only [Bool.and_eq_true, beq_iff_eq] at h5
                obtain ⟨⟨⟨⟨⟨⟨⟨⟨hdx5, hopx5⟩, hdy5⟩, hopy5⟩, hc0x⟩, heqx⟩,
                  hc0y⟩, heqy⟩, hequiv⟩ := h5
                obtain ⟨a0, a1, hkx⟩ :=
                  node_binary hOK (rfl : opArity Op.MUL = 2) hdx5 hopx5
                obtain ⟨b0, b1, hky⟩ :=
                  node_binary hOK (rfl : opArity Op.MUL = 2) hdy5 hopy5
                have hdep0x : dep0K (s.get x) = a0 := by rw [hkx]; rfl
                have hdep1x : dep1K (s.get x) = a1 := by rw [hkx]; rfl
                have hdep0y : dep0K (s.get y) = b0 := by rw [hky]; rfl
                have hdep1y : dep1K (s.get y) = b1 := by rw [hky]; rfl
                have ha1 : a1 < x := heapOK_deps hOK hx
                  (by rw [hkx]; simp [depsOf])
                rw [hdep0x] at hc0x heqx
                rw [hdep0y] at hc0y heqy
                rw [hdep1x, hdep1y] at hequiv
                have heva0 : evalN s σ a0 = some (.fin (1/2)) := by
                  rw [evalN_isConst σ hc0x, dEq_fin_iff.mp heqx]
                have hevb0 : evalN s σ b0 = some (.fin (1/2)) := by
                  rw [evalN_isConst σ hc0y, dEq_fin_iff.mp heqy]
                rw [evalN_binary hOK σ hkx, heva0,
                  Option.some_bind] at hvx
                cases hva1 : evalN s σ a1 with
                | none => rw [hva1] at hvx; simp at hvx
                | some u =>
                  rw [hva1] at hvx
                  simp only [Option.some_bind, evalBop,
                    Option.some.injEq] at hvx
                  cases u with
                  | nan => norm_num [dMul] at hvx; exact DV.noConfusion hvx
                  | pinf => norm_num [dMul] at hvx; exact DV.noConfusion hvx
                  | ninf => norm_num [dMul] at hvx; exact DV.noConfusion hvx
                  | fin p =>
                    simp only [dMul, DV.fin.injEq] at hvx
                    rw [evalN_binary hOK σ hky, hevb0,
                      Option.some_bind] at hvy
                    have hevb1 : evalN s σ b1 = evalN s σ a1 :=
                      isEquivalent_soundN hOK σ hequiv
                    rw [hevb1, hva1] at hvy
                    simp only [Option.some_bind, evalBop, dMul,
                      Option.some.injEq, DV.fin.injEq] at hvy
                    rw [hdep1x]
                    refine ⟨hOK, heapLE_refl s, Nat.lt_trans ha1 hx, ?_⟩
                    rw [hva1]
                    have harith : p = qa + qb := by
                      rw [← hvx, ← hvy]; ring
                    rw [harith]
                    norm_num
              · rw [if_neg h5]
                by_cases h6 : (hasDepK (s.get x) && (getOpK (s.get x) == .DIV)
                    && hasDepK (s.get y) && (getOpK (s.get y) == .DIV)
                    && isConstantK (s.get (dep1K (s.get x)))
                    && dEq (getValueK (s.get (dep1K (s.get x)))) (.fin 2)
                    && isConstantK (s.get (dep1K (s.get y)))
                    && dEq (getValueK (s.get (dep1K (s.get y)))) (.fin 2)
                    && isEquivalent s (dep0K (s.get y)) (dep0K (s.get x))
                        defaultEqDepth) = true
                · rw [if_pos h6]
                  simp only [Bool.and_eq_true, beq_iff_eq] at h6
                  obtain ⟨⟨⟨⟨⟨⟨⟨⟨hdx6, hopx6⟩, hdy6⟩, hopy6⟩, hc1x⟩, heqx⟩,
                    hc1y⟩, heqy⟩, hequiv⟩ := h6
                  obtain ⟨a0, a1, hkx⟩ :=
                    node_binary hOK (rfl : opArity Op.DIV = 2) hdx6 hopx6
                  obtain ⟨b0, b1, hky⟩ :=
                    node_binary hOK (rfl : opArity Op.DIV = 2) hdy6 hopy6
                  have hdep0x : dep0K (s.get x) = a0 := by rw [hkx]; rfl
                  have hdep1x : dep1K (s.get x) = a1 := by rw [hkx]; rfl
                  have hdep0y : dep0K (s.get y) = b0 := by rw [hky]; rfl
                  have hdep1y : dep1K (s.get y) = b1 := by rw [hky]; rfl
                  have ha0 : a0 < x := heapOK_deps hOK hx
                    (by rw [hkx]; simp [depsOf])
                  rw [hdep1x] at hc1x heqx
                  rw [hdep1y] at hc1y heqy
                  rw [hdep0x, hdep0y] at hequiv
                  have heva1 : evalN s σ a1 = some (.fin 2) := by
                    rw [evalN_isConst σ hc1x, dEq_fin_iff.mp heqx]
                  have hevb1 : evalN s σ b1 = some (.fin 2) := by
                    rw [evalN_isConst σ hc1y, dEq_fin_iff.mp heqy]
                  rw [evalN_binary hOK σ hkx, heva1] at hvx
                  cases hva0 : evalN s σ a0 with
                  | none => rw [hva0] at hvx; simp at hvx
                  | some u =>
                    rw [hva0] at hvx
                    simp only [Option.some_bind, evalBop,
                      Option.some.injEq] at hvx
                    cases u with
                    | nan => norm_num [dDiv] at hvx; exact DV.noConfusion hvx
                    | pinf => norm_num [dDiv] at hvx; exact DV.noConfusion hvx
                    | ninf => norm_num [dDiv] at hvx; exact DV.noConfusion hvx
                    | fin p =>
                      rw [show dDiv (DV.fin p) (DV.fin 2)
                          = .fin (p / 2) from by norm_num [dDiv]] at hvx
                      simp only [DV.fin.injEq] at hvx
                      rw [evalN_binary hOK σ hky, hevb1] at hvy
                      have hevb0 : evalN s σ b0 = evalN s σ a0 :=
                        isEquivalent_soundN hOK σ hequiv
                      rw [hevb0, hva0] at hvy
                      simp only [Option.some_bind, evalBop,
                        Option.some.injEq] at hvy
                      rw [show dDiv (DV.fin p) (DV.fin 2)
                          = .fin (p / 2) from by norm_num [dDiv]] at hvy
                      simp only [DV.fin.injEq] at hvy
                      rw [hdep0x]
                      refine ⟨hOK, heapLE_refl s, Nat.lt_trans ha0 hx, ?_⟩
                      rw [hva0]
                      have harith : p = qa + qb := by
                        rw [← hvx, ← hvy]; ring
                      rw [harith]
                      norm_num
                · rw [if_neg h6]
                  exact createBinary_sound hOK σ hx hy
                    (rfl : opArity Op.ADD = 2) hvx hvy rfl

theorem mulW_oneR {s : Heap} (hOK : heapOK s) {z : NodeId}
    (hz : z < s.length) : mulW s z oneId = (s, z) := by
  have hone : s.get oneId = .kOne := (heapOK_singletons hOK).2.1
  unfold mulW
  rw [show 2 * (z + oneId) + 4 = 2 * (z + oneId) + 2 + 1 + 1 from rfl]
  cases hk : s.get z with
  | kZero =>
    have hz0 : z = zeroId := (hOK.2 z (List.mem_range.mpr hz)).2.2.1 hk
    subst hz0
    simp [muldivF, hk, hone, isZeroK, isOneK, isConstantK]
  | kOne =>
    have hz1 : z = oneId := (hOK.2 z (List.mem_range.mpr hz)).2.2.2.1 hk
    subst hz1
    simp [muldivF, hk, hone, isZeroK, isOneK, isConstantK]
  | kMinusOne => simp [muldivF, hk, hone, isZeroK, isOneK, isConstantK]
  | kNan => simp [muldivF, hk, hone, isZeroK, isOneK, isConstantK]
  | kInf => simp [muldivF, hk, hone, isZeroK, isOneK, isConstantK]
  | kMinusInf => simp [muldivF, hk, hone, isZeroK, isOneK, isConstantK]
  | kInt v => simp [muldivF, hk, hone, isZeroK, isOneK, isConstantK]
  | kReal q => simp [muldivF, hk, hone, isZeroK, isOneK, isConstantK]
  | kSym n => simp [muldivF, hk, hone, isZeroK, isOneK, isConstantK]
  | kUnary op d => simp [muldivF, hk, hone, isZeroK, isOneK, isConstantK]
  | kBinary op d0 d1 =>
    simp [muldivF, hk, hone, isZeroK, isOneK, isConstantK]

theorem mulW_zeroR {s : Heap} (hOK : heapOK s) (z : NodeId) :
    mulW s z zeroId = (s, zeroId) := by
  have hzero : s.get zeroId = .kZero := (heapOK_singletons hOK).1
  unfold mulW
  rw [show 2 * (z + zeroId) + 4 = 2 * (z + zeroId) + 2 + 1 + 1 from rfl]
  by_cases hcz : isConstantK (s.get z) = true
  · simp [muldivF, hcz, hzero, isZeroK, isConstantK]
  · simp [muldivF, hcz, hzero, isZeroK, isConstantK]

theorem addW_zeroR {s : Heap} (hOK : heapOK s) {f : NodeId}
    (hf : f < s.length) : addW s f zeroId = (s, f) := by
  have hzero : s.get zeroId = .kZero := (heapOK_singletons hOK).1
  unfold addW
  rw [show f + zeroId + 2 = f + zeroId + 1 + 1 from rfl, addsubF_step_add]
  by_cases h1 : isZeroK (s.get f) = true
  · rw [if_pos h1]
    have hf0 : f = zeroId :=
      (hOK.2 f (List.mem_range.mpr hf)).2.2.1 (isZeroK_eq h1)
    rw [hf0]
  · rw [if_neg h1, if_pos (show isZeroK (s.get zeroId) = true by
      rw [hzero]; rfl)]

/-- C10 (implicit): `if_else(cond, t, f)` is built purely from the arithmetic
constructors as `f + (t-f)*cond` — no dedicated conditional node exists.  When
`cond` is the zero singleton the construction simplifies to the `f` handle
itself.  When `cond` is the one singleton the result is numerically `t`
whenever both branches evaluate to finite values (for non-finite branch values
the arithmetic encoding breaks down: see the counterexample, where
`if_else(1, 1, inf)` is NaN rather than 1). -/
theorem c10_if_else_construction (s : Heap) (σ : String → ℚ)
    (cond t f : NodeId) (hOK : heapOK s) (ht : t < s.length)
    (hf : f < s.length) :
    (if_else s cond t f
      = addW (mulW (subW s t f).1 (subW s t f).2 cond).1 f
          (mulW (subW s t f).1 (subW s t f).2 cond).2) ∧
    (if_else s zeroId t f).2 = f ∧
    (∀ qa qb : ℚ, evalN s σ t = some (.fin qa) →
      evalN s σ f = some (.fin qb) →
      evalN (if_else s oneId t f).1 σ (if_else s oneId t f).2
        = some (.fin qa)) := by
  refine ⟨rfl, ?_, ?_⟩
  · have hd := addsubF_preserve hOK (t + f + 2) true t f ht hf
    have hOK1 : heapOK (subW s t f).1 := hd.1
    have hle1 : heapLE s (subW s t f).1 := hd.2.1
    have hf1 : f < (subW s t f).1.length :=
      lt_of_lt_of_le hf (heapLE_len hle1)
    have hm : mulW (subW s t f).1 (subW s t f).2 zeroId
        = ((subW s t f).1, zeroId) := mulW_zeroR hOK1 (subW s t f).2
    rw [show if_else s zeroId t f
        = addW (mulW (subW s t f).1 (subW s t f).2 zeroId).1 f
            (mulW (subW s t f).1 (subW s t f).2 zeroId).2 from rfl, hm]
    show (addW (subW s t f).1 f zeroId).2 = f
    rw [addW_zeroR hOK1 hf1]
  · intro qa qb hqt hqf
    have hd := addsubF_sound hOK σ (t + f + 2) true t f qa qb ht hf hqt hqf
    have hOK1 : heapOK (subW s t f).1 := hd.1
    have hle1 : heapLE s (subW s t f).1 := hd.2.1
    have hr1 : (subW s t f).2 < (subW s t f).1.length := hd.2.2.1
    have hev1 : evalN (subW s t f).1 σ (subW s t f).2
        = some (.fin (qa - qb)) := hd.2.2.2
    have hm : mulW (subW s t f).1 (subW s t f).2 oneId
        = ((subW s t f).1, (subW s t f).2) := mulW_oneR hOK1 hr1
    have hf1 : f < (subW s t f).1.length :=
      lt_of_lt_of_le hf (heapLE_len hle1)
    have hqf1 : evalN (subW s t f).1 σ f = some (.fin qb) := by
      rw [evalN_mono hOK σ hf hle1, hqf]
    have hadd := addsubF_sound hOK1 σ (f + (subW s t f).2 + 2) false f
      (subW s t f).2 qb (qa - qb) hf1 hr1 hqf1 hev1
    rw [show if_else s oneId t f
        = addW (mulW (subW s t f).1 (subW s t f).2 oneId).1 f
            (mulW (subW s t f).1 (subW s t f).2 oneId).2 from rfl, hm]
    show evalN (addW (subW s t f).1 f (subW s t f).2).1 σ
        (addW (subW s t f).1 f (subW s t f).2).2 = some (.fin qa)
    have hval : evalN (addW (subW s t f).1 f (subW s t f).2).1 σ
        (addW (subW s t f).1 f (subW s t f).2).2
        = some (.fin (qb + (qa - qb))) := hadd.2.2.2
    rw [hval]
    have harith : qb + (qa - qb) = qa := by ring
    rw [harith]

theorem c10_witness :
    heapOK (initHeap ++ [SXKind.kSym "u"]) ∧
    7 < (initHeap ++ [SXKind.kSym "u"]).length ∧
    twoId < (initHeap ++ [SXKind.kSym "u"]).length ∧
    evalN (initHeap ++ [SXKind.kSym "u"]) (fun _ => 3) 7
      = some (.fin 3) ∧
    evalN (initHeap ++ [SXKind.kSym "u"]) (fun _ => 3) twoId
      = some (.fin 2) ∧
    (if_else (initHeap ++ [SXKind.kSym "u"]) zeroId 7 twoId).2 = twoId ∧
    evalN (if_else (initHeap ++ [SXKind.kSym "u"]) oneId 7 twoId).1
      (fun _ => 3)
      (if_else (initHeap ++ [SXKind.kSym "u"]) oneId 7 twoId).2
      = some (.fin 3) :=
  ⟨by with_unfolding_all decide, by with_unfolding_all decide,
    by with_unfolding_all decide, by with_unfolding_all decide,
    by with_unfolding_all decide,
    (c10_if_else_construction (initHeap ++ [SXKind.kSym "u"]) (fun _ => 3)
      0 7 twoId (by with_unfolding_all decide) (by with_unfolding_all decide)
      (by with_unfolding_all decide)).2.1,
    (c10_if_else_construction (initHeap ++ [SXKind.kSym "u"]) (fun _ => 3)
      0 7 twoId (by with_unfolding_all decide) (by with_unfolding_all decide)
      (by with_unfolding_all decide)).2.2 3 2
      (by with_unfolding_all decide) (by with_unfolding_all decide)⟩

theorem c10_counterexample :
    evalN initHeap (fun _ => 0) oneId = some (.fin 1) ∧
    heapOK initHeap ∧
    (if_else initHeap oneId oneId infId).2 = nanId ∧
    evalN (if_else initHeap oneId oneId infId).1 (fun _ => 0)
      (if_else initHeap oneId oneId infId).2 = some .nan := by
  with_unfolding_all decide

end Casadi
